import Mathlib

/-!
Verification of the JDDF schema library (jddf-rust).

This file gives a shallow embedding of `src/schema.rs` — the abstract
`Schema` representation, the wire representation `Serde`, and the checked
conversions between them — together with a model of the validation engine
(whose source file is not part of the repository snapshot; it is modelled
from the specification).  Rust `HashMap`s are embedded as association
lists in insertion order (a `HashMap` cannot hold duplicate keys, and the
conversion code only inserts fresh keys coming from such maps), and the
`HashSet` of enum values is embedded as an insertion-ordered
duplicate-free list, which supports exactly the `contains`/`insert`/
`is_empty` operations the source uses.
-/

set_option linter.unusedVariables false

namespace Jddf

/-- JSON values (`serde_json::Value`).  The schema code stores these only
as uninterpreted pass-through data in `extra`; the validation model also
uses them as instances.  JSON numbers are embedded as integers, which is
enough for every property proved here (none depends on fractional
numbers). -/
inductive Value where
  | null : Value
  | bool (b : Bool) : Value
  | num (n : Int) : Value
  | str (s : String) : Value
  | arr (elements : List Value) : Value
  | obj (fields : List (String × Value)) : Value

/-- The primitive types of the `type` keyword (`Type` in src/schema.rs;
renamed because `Type` is a Lean keyword). -/
inductive Ty where
  | Boolean | Float32 | Float64
  | Int8 | Uint8 | Int16 | Uint16 | Int32 | Uint32
  | String | Timestamp
deriving DecidableEq

/-- Construction-time schema errors (`JddfError` variants as used by
src/schema.rs: the module constructs exactly `InvalidForm`,
`AmbiguousProperty` and `NoSuchDefinition`). -/
inductive JddfError where
  | InvalidForm : JddfError
  | AmbiguousProperty (property : String) : JddfError
  | NoSuchDefinition (definition : String) : JddfError
deriving DecidableEq

/-- The wire representation (`Serde` in src/schema.rs): one optional slot
per recognized keyword plus the flattened bag of unrecognized keys.
`HashMap` fields are association lists; `rxf` is the `ref` keyword, `typ`
is `type`, `enm` is `enum`, `elems` is `elements`, `props` is
`properties`, `opt_props` is `optionalProperties`. -/
inductive Serde where
  | mk (defs : Option (List (String × Serde)))
       (additional_props : Option Bool)
       (rxf : Option String)
       (typ : Option String)
       (enm : Option (List String))
       (elems : Option Serde)
       (props : Option (List (String × Serde)))
       (opt_props : Option (List (String × Serde)))
       (vals : Option Serde)
       (disc : Option (String × List (String × Serde)))
       (extra : List (String × Value)) : Serde

def Serde.defs : Serde → Option (List (String × Serde))
  | .mk d _ _ _ _ _ _ _ _ _ _ => d

def Serde.additional_props : Serde → Option Bool
  | .mk _ a _ _ _ _ _ _ _ _ _ => a

def Serde.rxf : Serde → Option String
  | .mk _ _ r _ _ _ _ _ _ _ _ => r

def Serde.typ : Serde → Option String
  | .mk _ _ _ t _ _ _ _ _ _ _ => t

def Serde.enm : Serde → Option (List String)
  | .mk _ _ _ _ e _ _ _ _ _ _ => e

def Serde.elems : Serde → Option Serde
  | .mk _ _ _ _ _ e _ _ _ _ _ => e

def Serde.props : Serde → Option (List (String × Serde))
  | .mk _ _ _ _ _ _ p _ _ _ _ => p

def Serde.opt_props : Serde → Option (List (String × Serde))
  | .mk _ _ _ _ _ _ _ o _ _ _ => o

def Serde.vals : Serde → Option Serde
  | .mk _ _ _ _ _ _ _ _ v _ _ => v

def Serde.disc : Serde → Option (String × List (String × Serde))
  | .mk _ _ _ _ _ _ _ _ _ d _ => d

def Serde.extra : Serde → List (String × Value)
  | .mk _ _ _ _ _ _ _ _ _ _ x => x

mutual

/-- The abstract, checked schema representation (`Schema` in
src/schema.rs): optional definitions table (present exactly on root
schemas), a form, and the pass-through extra fields. -/
inductive Schema where
  | mk (defs : Option (List (String × Schema))) (form : Form)
       (extra : List (String × Value)) : Schema

/-- The closed set of schema forms (`Form` in src/schema.rs).  `Typ` is
the source's `Type` variant. -/
inductive Form where
  | Empty : Form
  | Ref (definition : String) : Form
  | Typ (t : Ty) : Form
  | Enum (vals : List String) : Form
  | Elements (sub : Schema) : Form
  | Properties (required : List (String × Schema))
      (optional : List (String × Schema))
      (allow_additional : Bool) (has_required : Bool) : Form
  | Values (sub : Schema) : Form
  | Discriminator (tag : String) (mapping : List (String × Schema)) : Form

end

def Schema.defs : Schema → Option (List (String × Schema))
  | .mk d _ _ => d

def Schema.form : Schema → Form
  | .mk _ f _ => f

def Schema.extra : Schema → List (String × Value)
  | .mk _ _ x => x

/-- Embeds `Schema::is_root` (src/schema.rs line 336): true exactly when
the definitions table is present. -/
def Schema.is_root (s : Schema) : Bool :=
  s.defs.isSome

/-- Embeds `Schema::definitions` (src/schema.rs line 343). -/
def Schema.definitions (s : Schema) : Option (List (String × Schema)) :=
  s.defs

/-- Tests whether a form is the `Empty` variant; this is what the
source's `form != Form::Empty` comparisons compute, since `Empty` carries
no payload. -/
def Form.isEmptyF : Form → Bool
  | .Empty => true
  | _ => false

/-- Key membership in an association list, the model of
`HashMap::contains_key`. -/
def hasKey {α : Type} (l : List (String × α)) (k : String) : Bool :=
  l.any (fun p => p.1 == k)

/-- Key lookup in an association list, the model of `HashMap::get`. -/
def lookupKey {α : Type} : List (String × α) → String → Option α
  | [], _ => none
  | (k, v) :: rest, key => if k == key then some v else lookupKey rest key

/-- The `type`-keyword name table of `Schema::_from_serde`
(src/schema.rs lines 79-92): `none` is the `_ => bail!(InvalidForm)`
arm. -/
def parseType (t : String) : Option Ty :=
  if t = "boolean" then some .Boolean
  else if t = "float32" then some .Float32
  else if t = "float64" then some .Float64
  else if t = "int8" then some .Int8
  else if t = "uint8" then some .Uint8
  else if t = "int16" then some .Int16
  else if t = "uint16" then some .Uint16
  else if t = "int32" then some .Int32
  else if t = "uint32" then some .Uint32
  else if t = "string" then some .String
  else if t = "timestamp" then some .Timestamp
  else none

/-- The `type` names emitted by `Schema::into_serde` (src/schema.rs
lines 255-287). -/
def printType : Ty → String
  | .Boolean => "boolean"
  | .Float32 => "float32"
  | .Float64 => "float64"
  | .Int8 => "int8"
  | .Uint8 => "uint8"
  | .Int16 => "int16"
  | .Uint16 => "uint16"
  | .Int32 => "int32"
  | .Uint32 => "uint32"
  | .String => "string"
  | .Timestamp => "timestamp"

/-- The enum-deduplication loop of `Schema::_from_serde` (src/schema.rs
lines 100-107): insert each value into the accumulated set, bailing with
`InvalidForm` on a duplicate.  The `HashSet` is modelled as an
insertion-ordered list. -/
def enumDedup : List String → List String → Except JddfError (List String)
  | acc, [] => .ok acc
  | acc, v :: rest =>
    if acc.contains v then .error .InvalidForm
    else enumDedup (acc ++ [v]) rest

/-- The `ref` block of `Schema::_from_serde` (src/schema.rs lines
70-72): set the form to `Ref` when present; it runs first and performs
no check. -/
def refStep : Option String → Form
  | some r => .Ref r
  | none => .Empty

/-- The `type` block of `Schema::_from_serde` (src/schema.rs lines
74-93). -/
def stepType (typ : Option String) (f : Form) : Except JddfError Form :=
  match typ with
  | none => pure f
  | some t =>
    if f.isEmptyF then
      match parseType t with
      | some ty => pure (Form.Typ ty)
      | none => .error JddfError.InvalidForm
    else .error JddfError.InvalidForm

/-- The `enum` block of `Schema::_from_serde` (src/schema.rs lines
95-114). -/
def stepEnum (enm : Option (List String)) (f : Form) : Except JddfError Form :=
  match enm with
  | none => pure f
  | some l =>
    if f.isEmptyF then do
      let dl ← enumDedup [] l
      if dl.isEmpty then .error JddfError.InvalidForm
      else pure (Form.Enum dl)
    else .error JddfError.InvalidForm

mutual

/-- Embeds `Schema::_from_serde` (src/schema.rs lines 53-196): convert a
wire schema by processing the `definitions` table and then the keyword
groups in source order (`ref`, `type`, `enum`, `elements`,
`properties`/`optionalProperties`, `values`, `discriminator`), each
block bailing the moment it finds the form already set. -/
def from_serde_aux (s : Serde) (is_root : Bool) : Except JddfError Schema :=
  match s with
  | .mk defs addl rxf typ enm elems props optProps vals disc extra => do
    let defsOut ← convDefs defs is_root
    let f2 ← stepType typ (refStep rxf)
    let f3 ← stepEnum enm f2
    let f4 ← stepElements elems f3
    let f5 ← stepProps props optProps addl f4
    let f6 ← stepValues vals f5
    let f7 ← stepDisc disc f6
    pure (.mk defsOut f7 extra)
termination_by sizeOf s

/-- The `definitions` block of `Schema::_from_serde` (src/schema.rs
lines 54-66): at the root, convert the (possibly absent) definitions
map; on a non-root schema, reject a present definitions map with
`InvalidForm`. -/
def convDefs (defs : Option (List (String × Serde))) (is_root : Bool) :
    Except JddfError (Option (List (String × Schema))) :=
  if is_root then
    match defs with
    | some l => do
      let ds ← convEntries l
      pure (some ds)
    | none => pure (some ([] : List (String × Schema)))
  else
    match defs with
    | some _ => .error JddfError.InvalidForm
    | none => pure none
termination_by sizeOf defs

/-- The plain conversion loops of `Schema::_from_serde` over the
`definitions` and `properties` maps (src/schema.rs lines 56-58 and
133-135): convert each entry as a non-root schema. -/
def convEntries : List (String × Serde) → Except JddfError (List (String × Schema))
  | [] => pure []
  | (name, sub) :: rest => do
    let s ← from_serde_aux sub false
    let rest2 ← convEntries rest
    pure ((name, s) :: rest2)
termination_by l => sizeOf l

/-- The `optionalProperties` loop (src/schema.rs lines 138-144): bail
with `AmbiguousProperty` when the name is already a required key,
otherwise convert. -/
def convOptional : List (String × Serde) → List (String × Schema) →
    Except JddfError (List (String × Schema))
  | [], _ => pure []
  | (name, sub) :: rest, required =>
    if hasKey required name then .error (.AmbiguousProperty name)
    else do
      let s ← from_serde_aux sub false
      let rest2 ← convOptional rest required
      pure ((name, s) :: rest2)
termination_by l _ => sizeOf l

/-- The discriminator-mapping loop (src/schema.rs lines 167-186):
convert each branch, require it to be in `Properties` form, and bail
with `AmbiguousProperty` when the branch declares the tag. -/
def convMapping (tag : String) : List (String × Serde) →
    Except JddfError (List (String × Schema))
  | [] => pure []
  | (name, sub) :: rest => do
    let s ← from_serde_aux sub false
    match s.form with
    | .Properties required optional _ _ =>
      if hasKey required tag || hasKey optional tag then
        .error (.AmbiguousProperty tag)
      else do
        let rest2 ← convMapping tag rest
        pure ((name, s) :: rest2)
    | _ => .error JddfError.InvalidForm
termination_by l => sizeOf l

/-- The `elements` block (src/schema.rs lines 116-122). -/
def stepElements (elems : Option Serde) (f : Form) : Except JddfError Form :=
  match elems with
  | none => pure f
  | some e =>
    if f.isEmptyF then do
      let sub ← from_serde_aux e false
      pure (Form.Elements sub)
    else .error JddfError.InvalidForm
termination_by sizeOf elems

/-- The `properties`/`optionalProperties` block (src/schema.rs lines
124-152). -/
def stepProps (props optProps : Option (List (String × Serde)))
    (addl : Option Bool) (f : Form) : Except JddfError Form :=
  if props.isSome || optProps.isSome then
    if f.isEmptyF then do
      let required ← (match props with
        | some l => convEntries l
        | none => pure [])
      let optional ← (match optProps with
        | some l => convOptional l required
        | none => pure [])
      pure (Form.Properties required optional (addl == some true) props.isSome)
    else .error JddfError.InvalidForm
  else pure f
termination_by sizeOf props + sizeOf optProps

/-- The `values` block (src/schema.rs lines 154-160). -/
def stepValues (vals : Option Serde) (f : Form) : Except JddfError Form :=
  match vals with
  | none => pure f
  | some v =>
    if f.isEmptyF then do
      let sub ← from_serde_aux v false
      pure (Form.Values sub)
    else .error JddfError.InvalidForm
termination_by sizeOf vals

/-- The `discriminator` block (src/schema.rs lines 162-189). -/
def stepDisc (disc : Option (String × List (String × Serde))) (f : Form) :
    Except JddfError Form :=
  match disc with
  | none => pure f
  | some (tag, mapping) =>
    if f.isEmptyF then do
      let m ← convMapping tag mapping
      pure (Form.Discriminator tag m)
    else .error JddfError.InvalidForm
termination_by sizeOf disc

end

/-- The `properties` map conversion of the properties block
(src/schema.rs lines 132-135), as a standalone function; it is
definitionally the corresponding segment of `stepProps`. -/
def convProps : Option (List (String × Serde)) →
    Except JddfError (List (String × Schema))
  | some l => convEntries l
  | none => pure []

/-- The `optionalProperties` map conversion of the properties block
(src/schema.rs lines 137-144), as a standalone function; it is
definitionally the corresponding segment of `stepProps`. -/
def convOptProps : Option (List (String × Serde)) → List (String × Schema) →
    Except JddfError (List (String × Schema))
  | some l, required => convOptional l required
  | none, _ => pure []

mutual

/-- Embeds `Schema::check_refs` (src/schema.rs lines 198-235): walk a
schema's form, requiring every `Ref` name to be a key of the given
definitions table. -/
def Schema.check_refs (defs : List (String × Schema)) : Schema → Except JddfError Unit
  | .mk _ form _ =>
    match form with
    | .Ref d =>
      if hasKey defs d then pure ()
      else .error (.NoSuchDefinition d)
    | .Elements sub => Schema.check_refs defs sub
    | .Properties required optional _ _ => do
      check_refs_list defs required
      check_refs_list defs optional
    | .Values sub => Schema.check_refs defs sub
    | .Discriminator _ mapping => check_refs_list defs mapping
    | _ => pure ()
termination_by s => sizeOf s

/-- The `check_refs` iterations over map values (src/schema.rs lines
215-221 and 227-229). -/
def check_refs_list (defs : List (String × Schema)) :
    List (String × Schema) → Except JddfError Unit
  | [] => pure ()
  | (_, s) :: rest => do
    Schema.check_refs defs s
    check_refs_list defs rest
termination_by l => sizeOf l

end

/-- Embeds `Schema::from_serde` (src/schema.rs lines 42-51): build the
root schema, then check refs of the root and of every definition against
the root's table.  The `none` branch mirrors the source's
`defs.as_ref().unwrap()` and is unreachable: a root conversion always
produces a definitions table (see `from_serde_aux_root_defs`). -/
def Schema.from_serde (s : Serde) : Except JddfError Schema := do
  let schema ← from_serde_aux s true
  match schema.defs with
  | some ds => do
    Schema.check_refs ds schema
    check_refs_list ds ds
    pure schema
  | none => .error JddfError.InvalidForm

mutual

/-- Embeds `Schema::into_serde` (src/schema.rs lines 238-330): rebuild
the wire value, emitting the field of the active form; for `Properties`,
emit `props` exactly when `has_required || !required.is_empty()` and
`opt_props` exactly when `!has_required || !optional.is_empty()`.
`additional_props` is never set (the source never writes it). -/
def Schema.into_serde : Schema → Serde
  | .mk defs form extra =>
    let defsOut : Option (List (String × Serde)) := (match defs with
      | some l => some (into_serde_entries l)
      | none => none)
    match form with
    | .Empty =>
      .mk defsOut none none none none none none none none none extra
    | .Ref d =>
      .mk defsOut none (some d) none none none none none none none extra
    | .Typ t =>
      .mk defsOut none none (some (printType t)) none none none none none none extra
    | .Enum vals =>
      .mk defsOut none none none (some vals) none none none none none extra
    | .Elements sub =>
      .mk defsOut none none none none (some (Schema.into_serde sub)) none none none none extra
    | .Properties required optional _ has_required =>
      .mk defsOut none none none none none
        (if has_required || !required.isEmpty then some (into_serde_entries required) else none)
        (if !has_required || !optional.isEmpty then some (into_serde_entries optional) else none)
        none none extra
    | .Values sub =>
      .mk defsOut none none none none none none none (some (Schema.into_serde sub)) none extra
    | .Discriminator tag mapping =>
      .mk defsOut none none none none none none none none
        (some (tag, into_serde_entries mapping)) extra
termination_by s => sizeOf s

/-- The entry-wise `into_serde` mapping over stored maps (src/schema.rs
lines 242-247, 299-314, 320-323). -/
def into_serde_entries : List (String × Schema) → List (String × Serde)
  | [] => []
  | (name, s) :: rest => (name, Schema.into_serde s) :: into_serde_entries rest
termination_by l => sizeOf l

end

mutual

/-- Statement-side normalization of a wire value: the output
`to_wire (from_wire w)` predicted for an accepted `w`.  It keeps every
keyword and every extra field, except that (a) a root's absent
`definitions` becomes an empty map, (b) `additionalProperties` is
dropped, and (c) a present-but-empty `optionalProperties` is dropped when
`properties` is also present (the documented required/optional-presence
normalization). -/
def normWire (root : Bool) : Serde → Serde
  | .mk defs _ rxf typ enm elems props optProps vals disc extra =>
    .mk (if root then
          some (match defs with
            | some l => normEntries l
            | none => [])
         else none)
        none rxf typ enm
        (match elems with
          | some e => some (normWire false e)
          | none => none)
        (match props with
          | some l => some (normEntries l)
          | none => none)
        (match optProps with
          | some l =>
            if props.isSome && l.isEmpty then none
            else some (normEntries l)
          | none => none)
        (match vals with
          | some v => some (normWire false v)
          | none => none)
        (match disc with
          | some (tag, m) => some (tag, normEntries m)
          | none => none)
        extra
termination_by s => sizeOf s

/-- Entry-wise `normWire` over wire maps. -/
def normEntries : List (String × Serde) → List (String × Serde)
  | [] => []
  | (n, s) :: rest => (n, normWire false s) :: normEntries rest
termination_by l => sizeOf l

end

mutual

/-- Statement-side collection of every `Ref` name reachable from a
schema's form through nested sub-schemas (not through definitions
tables, which non-root schemas do not carry). -/
def refNames : Schema → List String
  | .mk _ form _ =>
    match form with
    | .Ref d => [d]
    | .Elements sub => refNames sub
    | .Properties required optional _ _ =>
      refNamesList required ++ refNamesList optional
    | .Values sub => refNames sub
    | .Discriminator _ mapping => refNamesList mapping
    | _ => []
termination_by s => sizeOf s

/-- Entry-wise `refNames` over stored maps. -/
def refNamesList : List (String × Schema) → List String
  | [] => []
  | (_, s) :: rest => refNames s ++ refNamesList rest
termination_by l => sizeOf l

end

/-- Number of form-determining keyword groups present on a wire schema:
`ref`, `type`, `enum`, `elements`, `properties`/`optionalProperties`
(one group), `values`, `discriminator`. -/
def groupCount : Serde → Nat
  | .mk _ _ rxf typ enm elems props optProps vals disc _ =>
    (if rxf.isSome then 1 else 0) + (if typ.isSome then 1 else 0) +
    (if enm.isSome then 1 else 0) + (if elems.isSome then 1 else 0) +
    (if props.isSome || optProps.isSome then 1 else 0) +
    (if vals.isSome then 1 else 0) + (if disc.isSome then 1 else 0)

mutual

/-- Statement-side invariant: the schema is non-root (no definitions
table) and so is every schema nested below it. -/
def nonRootTree : Schema → Bool
  | .mk defs form _ => defs.isNone && formNonRoot form
termination_by s => sizeOf s

/-- Statement-side invariant on a form: every sub-schema stored in it is
recursively non-root. -/
def formNonRoot : Form → Bool
  | .Elements sub => nonRootTree sub
  | .Properties required optional _ _ =>
    nonRootList required && nonRootList optional
  | .Values sub => nonRootTree sub
  | .Discriminator _ mapping => nonRootList mapping
  | _ => true
termination_by f => sizeOf f

/-- Entry-wise `nonRootTree` over stored maps. -/
def nonRootList : List (String × Schema) → Bool
  | [] => true
  | (_, s) :: rest => nonRootTree s && nonRootList rest
termination_by l => sizeOf l

end

section Validator

/-- Path tokens of validation errors: object keys and array indices
(spec section 6). -/
inductive Token where
  | str (s : String) : Token
  | idx (n : Nat) : Token
deriving DecidableEq

/-- Modelled from the spec: a validation error, carrying a path into the
instance and a path into the schema (spec section 3, "Validation
Error").  The source file defining it (the validator) is not part of the
repository snapshot under src/. -/
structure ValidationError where
  instance_path : List Token
  schema_path : List Token
deriving DecidableEq

/-- Modelled from the spec: the single engine-level failure — recursive
reference depth exceeded (spec section 4.2). -/
inductive EngineError where
  | MaxDepthExceeded : EngineError
deriving DecidableEq

/-- Modelled from the spec: validation-time configuration with a maximum
reference-recursion depth and a maximum error count (spec section 3,
"Config").  The `max_errors` soft cap is not exercised by any claim
proved here; the validation model below returns the full error list,
i.e. behaves as an unbounded cap. -/
structure Config where
  max_depth : Nat
  max_errors : Nat

/-- Modelled from the spec: a simplified lexical check for the
`timestamp` type — the shape `YYYY-MM-DDTHH:MM:SSZ` with digits in the
numeric positions.  The spec asks for full RFC 3339 parsing; no claim
proved here depends on which strings pass, only on the check being a
pure string predicate. -/
def rfc3339ish (s : String) : Bool :=
  match s.toList with
  | [y1, y2, y3, y4, '-', m1, m2, '-', d1, d2, 'T',
     h1, h2, ':', mi1, mi2, ':', s1, s2, 'Z'] =>
    [y1, y2, y3, y4, m1, m2, d1, d2, h1, h2, mi1, mi2, s1, s2].all Char.isDigit
  | _ => false

/-- Modelled from the spec: the `Type`-form check (spec section 4.2):
booleans for `boolean`, any number for the float types, numbers in the
named range for the integer types, any string for `string`, and a
timestamp-shaped string for `timestamp`. -/
def typeMatches : Ty → Value → Bool
  | .Boolean, .bool _ => true
  | .Float32, .num _ => true
  | .Float64, .num _ => true
  | .Int8, .num n => decide (-128 ≤ n ∧ n ≤ 127)
  | .Uint8, .num n => decide (0 ≤ n ∧ n ≤ 255)
  | .Int16, .num n => decide (-32768 ≤ n ∧ n ≤ 32767)
  | .Uint16, .num n => decide (0 ≤ n ∧ n ≤ 65535)
  | .Int32, .num n => decide (-2147483648 ≤ n ∧ n ≤ 2147483647)
  | .Uint32, .num n => decide (0 ≤ n ∧ n ≤ 4294967295)
  | .String, .str _ => true
  | .Timestamp, .str s => rfc3339ish s
  | _, _ => false

/-- Modelled from the spec: the "additional property" accounting of the
`Properties` form (spec section 4.2): when additionals are not allowed,
every instance key that is neither required nor optional — and is not
the discriminator tag owned by an enclosing discriminator — yields one
error whose instance path points at the key and whose schema path points
at the `Properties` node itself. -/
def additionalErrors (fields : List (String × Value))
    (required optional : List (String × Schema)) (parentTag : Option String)
    (ip sp : List Token) : List ValidationError :=
  fields.filterMap (fun p =>
    if hasKey required p.1 || hasKey optional p.1 || parentTag == some p.1 then none
    else some ⟨ip ++ [.str p.1], sp⟩)

/-- Size of a looked-up association-list value, used for the termination
measure of the validation model. -/
theorem lookupKey_sizeOf_lt {α : Type} [SizeOf α] :
    ∀ (l : List (String × α)) (k : String) (v : α),
      lookupKey l k = some v → sizeOf v < sizeOf l := by
  intro l k v h
  induction l with
  | nil => simp [lookupKey] at h
  | cons p rest ih =>
    obtain ⟨pk, pv⟩ := p
    simp only [lookupKey] at h
    split at h
    · cases h
      simp only [List.cons.sizeOf_spec, Prod.mk.sizeOf_spec]
      omega
    · have := ih h
      simp only [List.cons.sizeOf_spec, Prod.mk.sizeOf_spec]
      omega

mutual

/-- Modelled from the spec: `Validator::validate` (spec section 4.2),
whose source file (the validation engine) is not part of the repository
snapshot under src/.  Depth-first structural matching carrying the
current sub-schema, instance, instance-path and schema-path; `Ref`
increments the reference-recursion counter and aborts with the
engine-level depth error once it exceeds `max_depth`; a discriminator
validates the whole instance against the selected branch with the tag
property excluded from additional-property accounting (`parentTag`).
The `none` arm of the `Ref` lookup is unreachable for schemas built by
`Schema.from_serde`, whose construction guarantees the definition
exists. -/
def validate (defs : List (String × Schema)) (max_depth depth : Nat)
    (schema : Schema) (inst : Value) (ip sp : List Token)
    (parentTag : Option String) : Except EngineError (List ValidationError) :=
  match schema with
  | .mk _ form _ =>
    match form with
    | .Empty => pure []
    | .Ref name =>
      if depth + 1 > max_depth then .error .MaxDepthExceeded
      else
        match hl : lookupKey defs name with
        | some target =>
          have hsz : sizeOf target < sizeOf defs :=
            lookupKey_sizeOf_lt defs name target hl
          validate defs max_depth (depth + 1) target inst ip sp none
        | none => pure []
    | .Typ t =>
      if typeMatches t inst then pure []
      else pure [⟨ip, sp ++ [.str "type"]⟩]
    | .Enum vals =>
      match inst with
      | .str s =>
        if vals.contains s then pure []
        else pure [⟨ip, sp ++ [.str "enum"]⟩]
      | _ => pure [⟨ip, sp ++ [.str "enum"]⟩]
    | .Elements sub =>
      match inst with
      | .arr elements => vElems defs max_depth depth sub elements 0 ip sp
      | _ => pure [⟨ip, sp ++ [.str "elements"]⟩]
    | .Properties required optional allow_additional _ =>
      match inst with
      | .obj fields => do
        let e1 ← vReq defs max_depth depth fields required ip sp
        let e2 ← vOpt defs max_depth depth fields optional ip sp
        let e3 := if allow_additional then [] else
          additionalErrors fields required optional parentTag ip sp
        pure (e1 ++ e2 ++ e3)
      | _ => pure [⟨ip, sp⟩]
    | .Values sub =>
      match inst with
      | .obj fields => vVals defs max_depth depth sub fields ip sp
      | _ => pure [⟨ip, sp ++ [.str "values"]⟩]
    | .Discriminator tag mapping =>
      match inst with
      | .obj fields =>
        match lookupKey fields tag with
        | some (.str tv) =>
          match hm : lookupKey mapping tv with
          | some branch =>
            have hsz : sizeOf branch < sizeOf mapping :=
              lookupKey_sizeOf_lt mapping tv branch hm
            validate defs max_depth depth branch (Value.obj fields)
              ip (sp ++ [.str "discriminator", .str "mapping", .str tv]) (some tag)
          | none => pure [⟨ip, sp ++ [.str "discriminator", .str "mapping"]⟩]
        | _ => pure [⟨ip, sp ++ [.str "discriminator"]⟩]
      | _ => pure [⟨ip, sp ++ [.str "discriminator"]⟩]
termination_by (max_depth + 1 - depth, sizeOf inst, sizeOf schema)

/-- Modelled from the spec: the `Elements` iteration — validate every
array element against the sub-schema, appending the element index to the
instance path and `elements` to the schema path. -/
def vElems (defs : List (String × Schema)) (max_depth depth : Nat)
    (sub : Schema) : List Value → Nat → List Token → List Token →
    Except EngineError (List ValidationError)
  | [], _, _, _ => pure []
  | v :: rest, i, ip, sp => do
    let here ← validate defs max_depth depth sub v
      (ip ++ [.idx i]) (sp ++ [.str "elements"]) none
    let more ← vElems defs max_depth depth sub rest (i + 1) ip sp
    pure (here ++ more)
termination_by l => (max_depth + 1 - depth, sizeOf l, 0)

/-- Modelled from the spec: the required-properties iteration — a
missing required property is one error at `properties/<name>`; a present
one is validated under that path. -/
def vReq (defs : List (String × Schema)) (max_depth depth : Nat)
    (fields : List (String × Value)) : List (String × Schema) →
    List Token → List Token → Except EngineError (List ValidationError)
  | [], _, _ => pure []
  | (name, sub) :: rest, ip, sp => do
    let here ← (match hf : lookupKey fields name with
      | some v =>
        have hsz : sizeOf v < sizeOf fields :=
          lookupKey_sizeOf_lt fields name v hf
        validate defs max_depth depth sub v
          (ip ++ [.str name]) (sp ++ [.str "properties", .str name]) none
      | none => pure [⟨ip, sp ++ [.str "properties", .str name]⟩])
    let more ← vReq defs max_depth depth fields rest ip sp
    pure (here ++ more)
termination_by l => (max_depth + 1 - depth, sizeOf fields, sizeOf l)

/-- Modelled from the spec: the optional-properties iteration — absent
optional properties yield no error; present ones are validated under
`optionalProperties/<name>`. -/
def vOpt (defs : List (String × Schema)) (max_depth depth : Nat)
    (fields : List (String × Value)) : List (String × Schema) →
    List Token → List Token → Except EngineError (List ValidationError)
  | [], _, _ => pure []
  | (name, sub) :: rest, ip, sp => do
    let here ← (match hf : lookupKey fields name with
      | some v =>
        have hsz : sizeOf v < sizeOf fields :=
          lookupKey_sizeOf_lt fields name v hf
        validate defs max_depth depth sub v
          (ip ++ [.str name]) (sp ++ [.str "optionalProperties", .str name]) none
      | none => pure [])
    let more ← vOpt defs max_depth depth fields rest ip sp
    pure (here ++ more)
termination_by l => (max_depth + 1 - depth, sizeOf fields, sizeOf l)

/-- Modelled from the spec: the `Values` iteration — validate every
object value against the sub-schema, appending the key to the instance
path and `values` to the schema path. -/
def vVals (defs : List (String × Schema)) (max_depth depth : Nat)
    (sub : Schema) : List (String × Value) → List Token → List Token →
    Except EngineError (List ValidationError)
  | [], _, _ => pure []
  | (k, v) :: rest, ip, sp => do
    let here ← validate defs max_depth depth sub v
      (ip ++ [.str k]) (sp ++ [.str "values"]) none
    let more ← vVals defs max_depth depth sub rest ip sp
    pure (here ++ more)
termination_by l => (max_depth + 1 - depth, sizeOf l, 0)

end

/-- Modelled from the spec: the root-level validation entry point —
start at depth 0 with empty paths, resolving refs against the root's
definitions table. -/
def validateRoot (cfg : Config) (root : Schema) (inst : Value) :
    Except EngineError (List ValidationError) :=
  validate (root.defs.getD []) cfg.max_depth 0 root inst [] [] none

end Validator

/-! Concrete wire values and schemas exercised by the statements below. -/

/-- The all-absent wire schema, `{}`. -/
def wEmpty : Serde := .mk none none none none none none none none none none []

/-- Wire `{"additionalProperties": true, "properties": {}}`. -/
def wAddl : Serde :=
  .mk none (some true) none none none none (some []) none none none []

/-- The schema `from_serde` produces from `wAddl`. -/
def sAddl : Schema := .mk (some []) (.Properties [] [] true true) []

/-- Wire `{"type": "boolean"}`. -/
def boolSerde : Serde :=
  .mk none none none (some "boolean") none none none none none none []

/-- The non-root schema `_from_serde` produces from `boolSerde`. -/
def boolSchema : Schema := .mk none (.Typ .Boolean) []

/-- Wire `{"definitions": {"a": {}}, "ref": "a"}`. -/
def w2ref : Serde :=
  .mk (some [("a", wEmpty)]) none (some "a") none none none none none none none []

/-- The schema `from_serde` produces from `w2ref`. -/
def s2ref : Schema := .mk (some [("a", .mk none .Empty [])]) (.Ref "a") []

/-- Wire `{"type": "boolean", "enum": ["A"]}`: two keyword groups. -/
def wTypeEnum : Serde :=
  .mk none none none (some "boolean") (some ["A"]) none none none none none []

/-- Wire with `properties` `{"a"}`, `optionalProperties` `{"a"}` and
`values` `{}`: two keyword groups, and a required/optional name clash
hit first. -/
def wC3amb : Serde :=
  .mk none none none none none none (some [("a", boolSerde)])
    (some [("a", boolSerde)]) (some wEmpty) none []

/-- Wire `{"properties": {}}`. -/
def wPropsEmpty : Serde :=
  .mk none none none none none none (some []) none none none []

/-- The schema `from_serde` produces from `wPropsEmpty`. -/
def sPropsEmpty : Schema := .mk (some []) (.Properties [] [] false true) []

/-- Wire `{"optionalProperties": {}}`. -/
def wOptEmpty : Serde :=
  .mk none none none none none none none (some []) none none []

/-- The schema `from_serde` produces from `wOptEmpty`. -/
def sOptEmpty : Schema := .mk (some []) (.Properties [] [] false false) []

/-- Wire with `properties` `{"a": bool}` and `optionalProperties`
`{"b": bool}`: disjoint names. -/
def w6a : Serde :=
  .mk none none none none none none (some [("a", boolSerde)])
    (some [("b", boolSerde)]) none none []

/-- The schema `from_serde` produces from `w6a`. -/
def s6a : Schema :=
  .mk (some []) (.Properties [("a", boolSchema)] [("b", boolSchema)] false true) []

/-- Wire with `properties` `{"a": bool}` and `optionalProperties`
`{"a": bool}`: the same name on both sides. -/
def w6b : Serde :=
  .mk none none none none none none (some [("a", boolSerde)])
    (some [("a", boolSerde)]) none none []

/-- Wire `{"enum": ["A", "A"]}`. -/
def wEnumDup : Serde :=
  .mk none none none none (some ["A", "A"]) none none none none none []

/-- Wire `{"enum": ["A", "B"]}`. -/
def wEnumAB : Serde :=
  .mk none none none none (some ["A", "B"]) none none none none none []

/-- Wire `{"definitions": {}}`, to be used in nested position. -/
def wNestedDefs : Serde :=
  .mk (some []) none none none none none none none none none []

/-- Wire `{"elements": {"definitions": {}}}`: a nested schema carrying a
definitions table. -/
def wElemNested : Serde :=
  .mk none none none none none (some wNestedDefs) none none none none []

/-- A discriminator mapping whose single branch is the empty (hence
non-`Properties`) schema. -/
def dmapEmptyBranch : List (String × Serde) := [("x", wEmpty)]

/-- The non-root schema `{"ref": "a"}`. -/
def refASchema : Schema := .mk none (.Ref "a") []

/-- The non-root schema `{"elements": {"ref": "a"}}`. -/
def elemsRefA : Schema := .mk none (.Elements refASchema) []

/-- A definitions table that is cyclic through `Ref`: `a` maps to an
array whose element schema refers back to `a`. -/
def cyclicDefs : List (String × Schema) := [("a", elemsRefA)]

/-- The root schema `{"definitions": {"a": {"elements": {"ref": "a"}}},
"ref": "a"}`. -/
def cyclicRoot : Schema := .mk (some cyclicDefs) (.Ref "a") []

/-- The wire form of `cyclicRoot`. -/
def wCyclic : Serde :=
  .mk (some [("a", .mk none none none none none
        (some (.mk none none (some "a") none none none none none none none []))
        none none none none [])])
    none (some "a") none none none none none none none []

/-- Nested singleton arrays of the given depth:
`nestArr 2 = [[true]]`. -/
def nestArr : Nat → Value
  | 0 => .bool true
  | n + 1 => .arr [nestArr n]

/-! Basic lemmas about the embedding. -/

@[simp] theorem pureExcept {ε α : Type} (a : α) :
    (pure a : Except ε α) = .ok a := rfl

@[simp] theorem okBind {ε α β : Type} (a : α) (f : α → Except ε β) :
    (Except.ok a >>= f : Except ε β) = f a := rfl

@[simp] theorem errorBind {ε α β : Type} (e : ε) (f : α → Except ε β) :
    (Except.error e >>= f : Except ε β) = Except.error e := rfl

theorem exceptBindOk {ε α β : Type} {x : Except ε α} {f : α → Except ε β} {b : β}
    (h : (x >>= f) = .ok b) : ∃ a, x = .ok a ∧ f a = .ok b := by
  cases x with
  | ok a =>
    refine ⟨a, rfl, ?_⟩
    simpa using h
  | error e => simp at h

/-- Decomposition of a successful `from_serde_aux` run into the
per-keyword blocks, in source order. -/
theorem from_serde_aux_ok_chain {defs : Option (List (String × Serde))}
    {addl : Option Bool} {rxf typ : Option String} {enm : Option (List String)}
    {elems : Option Serde} {props optProps : Option (List (String × Serde))}
    {vals : Option Serde} {disc : Option (String × List (String × Serde))}
    {extra : List (String × Value)} {r : Bool} {s : Schema}
    (h : from_serde_aux (.mk defs addl rxf typ enm elems props optProps vals disc extra) r = .ok s) :
    ∃ defsOut f2 f3 f4 f5 f6 f7,
      convDefs defs r = .ok defsOut ∧
      stepType typ (refStep rxf) = .ok f2 ∧
      stepEnum enm f2 = .ok f3 ∧
      stepElements elems f3 = .ok f4 ∧
      stepProps props optProps addl f4 = .ok f5 ∧
      stepValues vals f5 = .ok f6 ∧
      stepDisc disc f6 = .ok f7 ∧
      s = .mk defsOut f7 extra := by
  simp only [from_serde_aux] at h
  obtain ⟨defsOut, h0, h⟩ := exceptBindOk h
  obtain ⟨f2, h2, h⟩ := exceptBindOk h
  obtain ⟨f3, h3, h⟩ := exceptBindOk h
  obtain ⟨f4, h4, h⟩ := exceptBindOk h
  obtain ⟨f5, h5, h⟩ := exceptBindOk h
  obtain ⟨f6, h6, h⟩ := exceptBindOk h
  obtain ⟨f7, h7, h⟩ := exceptBindOk h
  simp only [pureExcept, Except.ok.injEq] at h
  exact ⟨defsOut, f2, f3, f4, f5, f6, f7, h0, h2, h3, h4, h5, h6, h7, h.symm⟩

theorem Form.isEmptyF_iff (f : Form) : f.isEmptyF = true ↔ f = .Empty := by
  cases f <;> simp [Form.isEmptyF]

@[simp] theorem stepType_none (f : Form) : stepType none f = .ok f := rfl

@[simp] theorem stepEnum_none (f : Form) : stepEnum none f = .ok f := rfl

@[simp] theorem stepElements_none (f : Form) : stepElements none f = .ok f := by
  simp [stepElements]

@[simp] theorem stepProps_none (addl : Option Bool) (f : Form) :
    stepProps none none addl f = .ok f := by
  simp [stepProps]

@[simp] theorem stepValues_none (f : Form) : stepValues none f = .ok f := by
  simp [stepValues]

@[simp] theorem stepDisc_none (f : Form) : stepDisc none f = .ok f := by
  simp [stepDisc]

theorem stepType_some_ok {t : String} {f f2 : Form}
    (h : stepType (some t) f = .ok f2) :
    f = .Empty ∧ ∃ ty, parseType t = some ty ∧ f2 = .Typ ty := by
  unfold stepType at h
  cases hf : f.isEmptyF
  · simp [hf] at h
  · have hfe := (Form.isEmptyF_iff f).mp hf
    subst hfe
    cases hp : parseType t with
    | some ty =>
      simp [hp, Form.isEmptyF] at h
      exact ⟨rfl, ty, rfl, h.symm⟩
    | none => simp [hp, Form.isEmptyF] at h

theorem enumDedup_eq : ∀ (l acc : List String),
    enumDedup acc l =
      if l.Nodup ∧ (∀ x ∈ l, x ∉ acc) then .ok (acc ++ l)
      else .error .InvalidForm := by
  intro l
  induction l with
  | nil => intro acc; simp [enumDedup]
  | cons v rest ih =>
    intro acc
    by_cases hv : v ∈ acc
    · rw [enumDedup, if_pos (by simpa [List.elem_iff] using hv)]
      rw [if_neg]
      intro hc
      exact absurd hv (hc.2 v (.head rest))
    · rw [enumDedup, if_neg (by simpa [List.elem_iff] using hv)]
      rw [ih]
      by_cases hcond : (v :: rest).Nodup ∧ ∀ x ∈ v :: rest, x ∉ acc
      · rw [if_pos, if_pos hcond]
        · simp
        · obtain ⟨h1, h2⟩ := hcond
          rw [List.nodup_cons] at h1
          refine ⟨h1.2, fun x hx => ?_⟩
          simp only [List.mem_append, List.mem_singleton]
          rintro (hxa | rfl)
          · exact h2 x (.tail v hx) hxa
          · exact h1.1 hx
      · rw [if_neg, if_neg hcond]
        intro hcon
        apply hcond
        obtain ⟨h1, h2⟩ := hcon
        rw [List.nodup_cons]
        constructor
        · refine ⟨fun hvr => ?_, h1⟩
          have := h2 v hvr
          simp at this
        · intro x hx
          rcases List.mem_cons.mp hx with rfl | hx2
          · exact hv
          · have := h2 x hx2
            simp at this
            exact this.1

theorem enumDedup_nil_eq (l : List String) :
    enumDedup [] l = if l.Nodup then .ok l else .error .InvalidForm := by
  rw [enumDedup_eq]
  simp

theorem stepEnum_some_ok {l : List String} {f f2 : Form}
    (h : stepEnum (some l) f = .ok f2) :
    f = .Empty ∧ l ≠ [] ∧ l.Nodup ∧ f2 = .Enum l := by
  simp only [stepEnum] at h
  cases hf : f.isEmptyF
  · simp [hf] at h
  · have hfe := (Form.isEmptyF_iff f).mp hf
    subst hfe
    rw [enumDedup_nil_eq] at h
    by_cases hnd : l.Nodup
    · rw [if_pos hnd] at h
      by_cases hnil : l = []
      · subst hnil
        simp [Form.isEmptyF] at h
      · simp [Form.isEmptyF, hnil] at h
        exact ⟨rfl, hnil, hnd, h.symm⟩
    · rw [if_neg hnd] at h
      simp [Form.isEmptyF] at h

theorem stepElements_some_ok {e : Serde} {f f2 : Form}
    (h : stepElements (some e) f = .ok f2) :
    f = .Empty ∧ ∃ sub, from_serde_aux e false = .ok sub ∧ f2 = .Elements sub := by
  unfold stepElements at h
  cases hf : f.isEmptyF
  · simp [hf] at h
  · have hfe := (Form.isEmptyF_iff f).mp hf
    subst hfe
    simp only [Form.isEmptyF, if_true] at h
    obtain ⟨sub, hsub, hpure⟩ := exceptBindOk h
    simp only [pureExcept, Except.ok.injEq] at hpure
    exact ⟨rfl, sub, hsub, hpure.symm ▸ rfl⟩

theorem stepValues_some_ok {v : Serde} {f f2 : Form}
    (h : stepValues (some v) f = .ok f2) :
    f = .Empty ∧ ∃ sub, from_serde_aux v false = .ok sub ∧ f2 = .Values sub := by
  unfold stepValues at h
  cases hf : f.isEmptyF
  · simp [hf] at h
  · have hfe := (Form.isEmptyF_iff f).mp hf
    subst hfe
    simp only [Form.isEmptyF, if_true] at h
    obtain ⟨sub, hsub, hpure⟩ := exceptBindOk h
    simp only [pureExcept, Except.ok.injEq] at hpure
    exact ⟨rfl, sub, hsub, hpure.symm ▸ rfl⟩

theorem stepProps_group_ok {props optProps : Option (List (String × Serde))}
    {addl : Option Bool} {f f2 : Form}
    (hg : (props.isSome || optProps.isSome) = true)
    (h : stepProps props optProps addl f = .ok f2) :
    f = .Empty ∧ ∃ req opt, convProps props = .ok req ∧
      convOptProps optProps req = .ok opt ∧
      f2 = .Properties req opt (addl == some true) props.isSome := by
  unfold stepProps at h
  rw [if_pos hg] at h
  cases hf : f.isEmptyF
  · simp [hf] at h
  · have hfe := (Form.isEmptyF_iff f).mp hf
    subst hfe
    simp only [Form.isEmptyF, if_true] at h
    obtain ⟨req, hreq, h⟩ := exceptBindOk h
    obtain ⟨opt, hopt, hpure⟩ := exceptBindOk h
    simp only [pureExcept, Except.ok.injEq] at hpure
    refine ⟨rfl, req, opt, ?_, ?_, hpure.symm⟩
    · cases props <;> exact hreq
    · cases optProps <;> exact hopt

theorem stepDisc_some_ok {tag : String} {mapping : List (String × Serde)} {f f2 : Form}
    (h : stepDisc (some (tag, mapping)) f = .ok f2) :
    f = .Empty ∧ ∃ m, convMapping tag mapping = .ok m ∧ f2 = .Discriminator tag m := by
  simp only [stepDisc] at h
  cases hf : f.isEmptyF
  · simp [hf] at h
  · have hfe := (Form.isEmptyF_iff f).mp hf
    subst hfe
    simp only [Form.isEmptyF, if_true] at h
    obtain ⟨m, hm, hpure⟩ := exceptBindOk h
    simp only [pureExcept, Except.ok.injEq] at hpure
    exact ⟨rfl, m, hm, hpure.symm ▸ rfl⟩

theorem refStep_empty {rxf : Option String} (h : refStep rxf = .Empty) :
    rxf = none := by
  cases rxf
  · rfl
  · simp [refStep] at h

theorem stepType_ok_empty {typ : Option String} {f : Form}
    (h : stepType typ f = .ok .Empty) : typ = none ∧ f = .Empty := by
  cases typ
  · simp at h
    exact ⟨rfl, h⟩
  · obtain ⟨he, ty, hty, hf2⟩ := stepType_some_ok h
    cases hf2

theorem stepEnum_ok_empty {enm : Option (List String)} {f : Form}
    (h : stepEnum enm f = .ok .Empty) : enm = none ∧ f = .Empty := by
  cases enm
  · simp at h
    exact ⟨rfl, h⟩
  · obtain ⟨he, hne, hnd, hf2⟩ := stepEnum_some_ok h
    cases hf2

theorem stepElements_ok_empty {elems : Option Serde} {f : Form}
    (h : stepElements elems f = .ok .Empty) : elems = none ∧ f = .Empty := by
  cases elems
  · simp at h
    exact ⟨rfl, h⟩
  · obtain ⟨he, sub, hsub, hf2⟩ := stepElements_some_ok h
    cases hf2

theorem stepProps_ok_empty {props optProps : Option (List (String × Serde))}
    {addl : Option Bool} {f : Form}
    (h : stepProps props optProps addl f = .ok .Empty) :
    props = none ∧ optProps = none ∧ f = .Empty := by
  by_cases hg : (props.isSome || optProps.isSome) = true
  · obtain ⟨he, req, opt, hreq, hopt, hf2⟩ := stepProps_group_ok hg h
    cases hf2
  · cases props <;> cases optProps <;> simp_all

theorem stepValues_ok_empty {vals : Option Serde} {f : Form}
    (h : stepValues vals f = .ok .Empty) : vals = none ∧ f = .Empty := by
  cases vals
  · simp at h
    exact ⟨rfl, h⟩
  · obtain ⟨he, sub, hsub, hf2⟩ := stepValues_some_ok h
    cases hf2

theorem stepDisc_ok_empty {disc : Option (String × List (String × Serde))} {f : Form}
    (h : stepDisc disc f = .ok .Empty) : disc = none ∧ f = .Empty := by
  cases disc with
  | none =>
    simp at h
    exact ⟨rfl, h⟩
  | some p =>
    obtain ⟨tag, mapping⟩ := p
    obtain ⟨he, m, hm, hf2⟩ := stepDisc_some_ok h
    cases hf2

/-- A successful conversion means at most one form-determining keyword
group was present on the wire schema. -/
theorem from_serde_aux_ok_groupCount {w : Serde} {r : Bool} {s : Schema}
    (h : from_serde_aux w r = .ok s) : groupCount w ≤ 1 := by
  obtain ⟨defs, addl, rxf, typ, enm, elems, props, optProps, vals, disc, extra⟩ := w
  obtain ⟨defsOut, f2, f3, f4, f5, f6, f7, h0, h2, h3, h4, h5, h6, h7, hs⟩ :=
    from_serde_aux_ok_chain h
  clear h hs h0
  rcases disc with _ | ⟨tg, mp⟩
  rotate_left
  · obtain ⟨hf6e, -⟩ := stepDisc_some_ok h7
    subst hf6e
    obtain ⟨hvals, hf5e⟩ := stepValues_ok_empty h6
    subst hvals
    subst hf5e
    obtain ⟨hp, ho, hf4e⟩ := stepProps_ok_empty h5
    subst hp
    subst ho
    subst hf4e
    obtain ⟨hel, hf3e⟩ := stepElements_ok_empty h4
    subst hel
    subst hf3e
    obtain ⟨hen, hf2e⟩ := stepEnum_ok_empty h3
    subst hen
    subst hf2e
    obtain ⟨hty, hf1e⟩ := stepType_ok_empty h2
    subst hty
    have hr := refStep_empty hf1e
    subst hr
    simp [groupCount]
  · rcases vals with _ | vv
    rotate_left
    · obtain ⟨hf5e, -⟩ := stepValues_some_ok h6
      subst hf5e
      obtain ⟨hp, ho, hf4e⟩ := stepProps_ok_empty h5
      subst hp
      subst ho
      subst hf4e
      obtain ⟨hel, hf3e⟩ := stepElements_ok_empty h4
      subst hel
      subst hf3e
      obtain ⟨hen, hf2e⟩ := stepEnum_ok_empty h3
      subst hen
      subst hf2e
      obtain ⟨hty, hf1e⟩ := stepType_ok_empty h2
      subst hty
      have hr := refStep_empty hf1e
      subst hr
      simp [groupCount]
    · by_cases hg : (props.isSome || optProps.isSome) = true
      · obtain ⟨hf4e, -⟩ := stepProps_group_ok hg h5
        subst hf4e
        obtain ⟨hel, hf3e⟩ := stepElements_ok_empty h4
        subst hel
        subst hf3e
        obtain ⟨hen, hf2e⟩ := stepEnum_ok_empty h3
        subst hen
        subst hf2e
        obtain ⟨hty, hf1e⟩ := stepType_ok_empty h2
        subst hty
        have hr := refStep_empty hf1e
        subst hr
        simp [groupCount, hg]
      · have hpn : props = none := by
          cases props
          · rfl
          · simp at hg
        have hon : optProps = none := by
          cases optProps
          · rfl
          · simp [hpn] at hg
        subst hpn
        subst hon
        rcases elems with _ | ee
        rotate_left
        · obtain ⟨hf3e, -⟩ := stepElements_some_ok h4
          subst hf3e
          obtain ⟨hen, hf2e⟩ := stepEnum_ok_empty h3
          subst hen
          subst hf2e
          obtain ⟨hty, hf1e⟩ := stepType_ok_empty h2
          subst hty
          have hr := refStep_empty hf1e
          subst hr
          simp [groupCount]
        · rcases enm with _ | el
          rotate_left
          · obtain ⟨hf2e, -⟩ := stepEnum_some_ok h3
            subst hf2e
            obtain ⟨hty, hf1e⟩ := stepType_ok_empty h2
            subst hty
            have hr := refStep_empty hf1e
            subst hr
            simp [groupCount]
          · rcases typ with _ | t
            rotate_left
            · obtain ⟨hf1e, -⟩ := stepType_some_ok h2
              have hr := refStep_empty hf1e
              subst hr
              simp [groupCount]
            · rcases rxf with _ | rr <;> simp [groupCount]

theorem exceptBindOk_iff {ε α β : Type} {x : Except ε α} {f : α → Except ε β} {b : β} :
    (x >>= f) = .ok b ↔ ∃ a, x = .ok a ∧ f a = .ok b := by
  constructor
  · exact exceptBindOk
  · rintro ⟨a, hx, hf⟩
    subst hx
    simpa using hf

theorem exceptBindError_inv {ε α β : Type} {x : Except ε α} {f : α → Except ε β} {e : ε}
    (h : (x >>= f) = .error e) : x = .error e ∨ ∃ a, x = .ok a ∧ f a = .error e := by
  cases x with
  | ok a =>
    right
    refine ⟨a, rfl, ?_⟩
    simpa using h
  | error e2 =>
    left
    simpa using h

theorem sizeOf_snd_lt_of_mem {α β : Type} [SizeOf α] [SizeOf β]
    {l : List (α × β)} {p : α × β} (hp : p ∈ l) : sizeOf p.2 < sizeOf l := by
  have h1 := List.sizeOf_lt_of_mem hp
  obtain ⟨a, b⟩ := p
  simp only [Prod.mk.sizeOf_spec] at h1
  simp only []
  omega

theorem mem_refNamesList {l : List (String × Schema)} {nm : String} :
    nm ∈ refNamesList l ↔ ∃ p ∈ l, nm ∈ refNames p.2 := by
  induction l with
  | nil => simp [refNamesList]
  | cons p rest ih =>
    obtain ⟨k, s⟩ := p
    simp only [refNamesList, List.mem_append, ih, List.mem_cons]
    constructor
    · rintro (h | ⟨q, hq, hnm⟩)
      · exact ⟨(k, s), .inl rfl, h⟩
      · exact ⟨q, .inr hq, hnm⟩
    · rintro ⟨q, hq | hq, hnm⟩
      · subst hq
        exact .inl hnm
      · exact .inr ⟨q, hq, hnm⟩

theorem check_refs_list_decomp {ds : List (String × Schema)} : ∀ {l : List (String × Schema)},
    check_refs_list ds l = .ok () ↔ ∀ p ∈ l, Schema.check_refs ds p.2 = .ok () := by
  intro l
  induction l with
  | nil => simp [check_refs_list]
  | cons p rest ih =>
    obtain ⟨k, s⟩ := p
    simp only [check_refs_list]
    constructor
    · intro h
      obtain ⟨u, hu, hrest⟩ := exceptBindOk h
      intro q hq
      rcases List.mem_cons.mp hq with rfl | hq2
      · cases u
        exact hu
      · exact ih.mp hrest q hq2
    · intro h
      have h1 := h (k, s) (.head rest)
      rw [h1]
      simp only [okBind]
      exact ih.mpr (fun q hq => h q (.tail _ hq))

theorem check_refs_ok_iff_aux (ds : List (String × Schema)) :
    ∀ (n : Nat) (t : Schema), sizeOf t ≤ n →
      (Schema.check_refs ds t = .ok () ↔ ∀ nm ∈ refNames t, hasKey ds nm = true) := by
  intro n
  induction n with
  | zero =>
    intro t ht
    obtain ⟨defs, form, extra⟩ := t
    simp only [Schema.mk.sizeOf_spec] at ht
    omega
  | succ n ih =>
    intro t ht
    obtain ⟨defs, form, extra⟩ := t
    cases form with
    | Empty => simp [Schema.check_refs, refNames]
    | Typ ty => simp [Schema.check_refs, refNames]
    | Enum vs => simp [Schema.check_refs, refNames]
    | Ref d =>
      by_cases hk : hasKey ds d = true
      · simp [Schema.check_refs, refNames, hk]
      · simp [Schema.check_refs, refNames, hk]
    | Elements sub =>
      have hsz : sizeOf sub ≤ n := by
        simp only [Schema.mk.sizeOf_spec, Form.Elements.sizeOf_spec] at ht
        omega
      simp only [Schema.check_refs, refNames]
      exact ih sub hsz
    | Values sub =>
      have hsz : sizeOf sub ≤ n := by
        simp only [Schema.mk.sizeOf_spec, Form.Values.sizeOf_spec] at ht
        omega
      simp only [Schema.check_refs, refNames]
      exact ih sub hsz
    | Properties req opt aa hr =>
      have hreq : ∀ p ∈ req, sizeOf p.2 ≤ n := by
        intro p hp
        have h1 := sizeOf_snd_lt_of_mem hp
        simp only [Schema.mk.sizeOf_spec, Form.Properties.sizeOf_spec] at ht
        omega
      have hopt : ∀ p ∈ opt, sizeOf p.2 ≤ n := by
        intro p hp
        have h1 := sizeOf_snd_lt_of_mem hp
        simp only [Schema.mk.sizeOf_spec, Form.Properties.sizeOf_spec] at ht
        omega
      simp only [Schema.check_refs, refNames]
      rw [exceptBindOk_iff]
      constructor
      · rintro ⟨u, h1, h2⟩
        cases u
        intro nm hnm
        rcases List.mem_append.mp hnm with hm | hm
        · obtain ⟨p, hp, hnmp⟩ := mem_refNamesList.mp hm
          exact ((ih p.2 (hreq p hp)).mp (check_refs_list_decomp.mp h1 p hp)) nm hnmp
        · obtain ⟨p, hp, hnmp⟩ := mem_refNamesList.mp hm
          exact ((ih p.2 (hopt p hp)).mp (check_refs_list_decomp.mp h2 p hp)) nm hnmp
      · intro h
        refine ⟨(), ?_, ?_⟩
        · exact check_refs_list_decomp.mpr (fun p hp =>
            (ih p.2 (hreq p hp)).mpr (fun nm hnm =>
              h nm (List.mem_append.mpr (.inl (mem_refNamesList.mpr ⟨p, hp, hnm⟩)))))
        · exact check_refs_list_decomp.mpr (fun p hp =>
            (ih p.2 (hopt p hp)).mpr (fun nm hnm =>
              h nm (List.mem_append.mpr (.inr (mem_refNamesList.mpr ⟨p, hp, hnm⟩)))))
    | Discriminator tg mp =>
      have hmp : ∀ p ∈ mp, sizeOf p.2 ≤ n := by
        intro p hp
        have h1 := sizeOf_snd_lt_of_mem hp
        simp only [Schema.mk.sizeOf_spec, Form.Discriminator.sizeOf_spec] at ht
        omega
      simp only [Schema.check_refs, refNames]
      rw [check_refs_list_decomp]
      constructor
      · intro h nm hnm
        obtain ⟨p, hp, hnmp⟩ := mem_refNamesList.mp hnm
        exact (ih p.2 (hmp p hp)).mp (h p hp) nm hnmp
      · intro h p hp
        exact (ih p.2 (hmp p hp)).mpr (fun nm hnm =>
          h nm (mem_refNamesList.mpr ⟨p, hp, hnm⟩))

/-- The ref check succeeds exactly when every reachable `Ref` name is a
key of the definitions table. -/
theorem check_refs_ok_iff (ds : List (String × Schema)) (t : Schema) :
    Schema.check_refs ds t = .ok () ↔ ∀ nm ∈ refNames t, hasKey ds nm = true :=
  check_refs_ok_iff_aux ds (sizeOf t) t le_rfl

theorem check_refs_list_error_shape {ds : List (String × Schema)}
    {l : List (String × Schema)} {e : JddfError}
    (IH : ∀ p ∈ l, ∀ {e2 : JddfError}, Schema.check_refs ds p.2 = .error e2 →
      ∃ nm, e2 = .NoSuchDefinition nm ∧ hasKey ds nm = false)
    (h : check_refs_list ds l = .error e) :
    ∃ nm, e = .NoSuchDefinition nm ∧ hasKey ds nm = false := by
  induction l with
  | nil => simp [check_refs_list] at h
  | cons p rest ih2 =>
    obtain ⟨k, s⟩ := p
    simp only [check_refs_list] at h
    rcases exceptBindError_inv h with h1 | ⟨u, hu, h2⟩
    · exact IH (k, s) (.head rest) h1
    · exact ih2 (fun q hq => IH q (.tail _ hq)) h2

theorem check_refs_error_shape_aux (ds : List (String × Schema)) :
    ∀ (n : Nat) (t : Schema), sizeOf t ≤ n → ∀ {e : JddfError},
      Schema.check_refs ds t = .error e →
      ∃ nm, e = .NoSuchDefinition nm ∧ hasKey ds nm = false := by
  intro n
  induction n with
  | zero =>
    intro t ht
    obtain ⟨defs, form, extra⟩ := t
    simp only [Schema.mk.sizeOf_spec] at ht
    omega
  | succ n ih =>
    intro t ht e h
    obtain ⟨defs, form, extra⟩ := t
    cases form with
    | Empty => simp [Schema.check_refs] at h
    | Typ ty => simp [Schema.check_refs] at h
    | Enum vs => simp [Schema.check_refs] at h
    | Ref d =>
      by_cases hk : hasKey ds d = true
      · simp [Schema.check_refs, hk] at h
      · simp only [Schema.check_refs, hk, Bool.false_eq_true, if_false,
          Except.error.injEq] at h
        refine ⟨d, h.symm, ?_⟩
        simpa using hk
    | Elements sub =>
      have hsz : sizeOf sub ≤ n := by
        simp only [Schema.mk.sizeOf_spec, Form.Elements.sizeOf_spec] at ht
        omega
      simp only [Schema.check_refs] at h
      exact ih sub hsz h
    | Values sub =>
      have hsz : sizeOf sub ≤ n := by
        simp only [Schema.mk.sizeOf_spec, Form.Values.sizeOf_spec] at ht
        omega
      simp only [Schema.check_refs] at h
      exact ih sub hsz h
    | Properties req opt aa hr =>
      have hreq : ∀ p ∈ req, sizeOf p.2 ≤ n := by
        intro p hp
        have h1 := sizeOf_snd_lt_of_mem hp
        simp only [Schema.mk.sizeOf_spec, Form.Properties.sizeOf_spec] at ht
        omega
      have hopt : ∀ p ∈ opt, sizeOf p.2 ≤ n := by
        intro p hp
        have h1 := sizeOf_snd_lt_of_mem hp
        simp only [Schema.mk.sizeOf_spec, Form.Properties.sizeOf_spec] at ht
        omega
      simp only [Schema.check_refs] at h
      rcases exceptBindError_inv h with h1 | ⟨u, hu, h2⟩
      · exact check_refs_list_error_shape (fun p hp => ih p.2 (hreq p hp)) h1
      · exact check_refs_list_error_shape (fun p hp => ih p.2 (hopt p hp)) h2
    | Discriminator tg mp =>
      have hmp : ∀ p ∈ mp, sizeOf p.2 ≤ n := by
        intro p hp
        have h1 := sizeOf_snd_lt_of_mem hp
        simp only [Schema.mk.sizeOf_spec, Form.Discriminator.sizeOf_spec] at ht
        omega
      simp only [Schema.check_refs] at h
      exact check_refs_list_error_shape (fun p hp => ih p.2 (hmp p hp)) h


/-- A failing ref check always fails with `NoSuchDefinition` for a name
missing from the table. -/
theorem check_refs_error_shape {ds : List (String × Schema)} {t : Schema} {e : JddfError}
    (h : Schema.check_refs ds t = .error e) :
    ∃ nm, e = .NoSuchDefinition nm ∧ hasKey ds nm = false :=
  check_refs_error_shape_aux ds (sizeOf t) t le_rfl h

theorem convEntries_forall₂ : ∀ {l : List (String × Serde)} {out : List (String × Schema)},
    convEntries l = .ok out →
    List.Forall₂ (fun p q => p.1 = q.1 ∧ from_serde_aux p.2 false = .ok q.2) l out := by
  intro l
  induction l with
  | nil =>
    intro out h
    simp only [convEntries, pureExcept, Except.ok.injEq] at h
    subst h
    exact .nil
  | cons p rest ih =>
    intro out h
    obtain ⟨np, sub⟩ := p
    simp only [convEntries] at h
    obtain ⟨t, ht, h⟩ := exceptBindOk h
    obtain ⟨rest2, hrest, h⟩ := exceptBindOk h
    simp only [pureExcept, Except.ok.injEq] at h
    subst h
    exact .cons ⟨rfl, ht⟩ (ih hrest)

theorem convOptional_forall₂ {req : List (String × Schema)} :
    ∀ {l : List (String × Serde)} {out : List (String × Schema)},
    convOptional l req = .ok out →
    List.Forall₂ (fun p q => p.1 = q.1 ∧ from_serde_aux p.2 false = .ok q.2) l out ∧
    ∀ p ∈ l, hasKey req p.1 = false := by
  intro l
  induction l with
  | nil =>
    intro out h
    simp only [convOptional, pureExcept, Except.ok.injEq] at h
    subst h
    exact ⟨.nil, by simp⟩
  | cons p rest ih =>
    intro out h
    obtain ⟨np, sub⟩ := p
    simp only [convOptional] at h
    by_cases hk : hasKey req np = true
    · rw [if_pos hk] at h
      cases h
    · rw [if_neg hk] at h
      obtain ⟨t, ht, h⟩ := exceptBindOk h
      obtain ⟨rest2, hrest, h⟩ := exceptBindOk h
      simp only [pureExcept, Except.ok.injEq] at h
      subst h
      obtain ⟨hfa, hkeys⟩ := ih hrest
      refine ⟨.cons ⟨rfl, ht⟩ hfa, ?_⟩
      intro q hq
      rcases List.mem_cons.mp hq with rfl | hq2
      · simpa using hk
      · exact hkeys q hq2

theorem convMapping_forall₂ {tag : String} :
    ∀ {l : List (String × Serde)} {out : List (String × Schema)},
    convMapping tag l = .ok out →
    List.Forall₂ (fun p q => p.1 = q.1 ∧ from_serde_aux p.2 false = .ok q.2 ∧
      ∃ r o aa hr, q.2.form = .Properties r o aa hr ∧
        hasKey r tag = false ∧ hasKey o tag = false) l out := by
  intro l
  induction l with
  | nil =>
    intro out h
    simp only [convMapping, pureExcept, Except.ok.injEq] at h
    subst h
    exact .nil
  | cons p rest ih =>
    intro out h
    obtain ⟨np, sub⟩ := p
    simp only [convMapping] at h
    obtain ⟨t, ht, h⟩ := exceptBindOk h
    obtain ⟨defs2, form2, extra2⟩ := t
    cases hform : form2 with
    | Properties r o aa hr =>
      subst hform
      simp only [Schema.form] at h
      by_cases hk : (hasKey r tag || hasKey o tag) = true
      · rw [if_pos hk] at h
        cases h
      · rw [if_neg hk] at h
        obtain ⟨rest2, hrest, h⟩ := exceptBindOk h
        simp only [pureExcept, Except.ok.injEq] at h
        subst h
        simp only [Bool.or_eq_true, not_or, Bool.not_eq_true] at hk
        exact .cons ⟨rfl, ht, r, o, aa, hr, rfl, hk.1, hk.2⟩ (ih hrest)
    | Empty => subst hform; simp [Schema.form] at h
    | Ref d => subst hform; simp [Schema.form] at h
    | Typ ty => subst hform; simp [Schema.form] at h
    | Enum vs => subst hform; simp [Schema.form] at h
    | Elements s2 => subst hform; simp [Schema.form] at h
    | Values s2 => subst hform; simp [Schema.form] at h
    | Discriminator t2 m2 => subst hform; simp [Schema.form] at h

theorem forall₂_keys_eq {α β : Type} {R : (String × α) → (String × β) → Prop}
    (hR : ∀ p q, R p q → p.1 = q.1) :
    ∀ {l : List (String × α)} {out : List (String × β)},
    List.Forall₂ R l out → ∀ k, hasKey out k = hasKey l k := by
  intro l out h
  induction h with
  | nil => intro k; rfl
  | cons hpq hrest ih =>
    intro k
    rename_i p q l2 out2
    simp only [hasKey, List.any_cons]
    have hpq1 := hR p q hpq
    have ih2 := ih k
    simp only [hasKey] at ih2
    rw [← hpq1, ih2]

theorem hasKey_iff_exists {α : Type} {l : List (String × α)} {k : String} :
    hasKey l k = true ↔ ∃ p ∈ l, p.1 = k := by
  simp [hasKey, List.any_eq_true, beq_iff_eq]

theorem convDefs_root_some {defs : Option (List (String × Serde))}
    {defsOut : Option (List (String × Schema))}
    (h : convDefs defs true = .ok defsOut) :
    ∃ ds, defsOut = some ds ∧
      ((defs = none ∧ ds = []) ∨ ∃ l, defs = some l ∧ convEntries l = .ok ds) := by
  cases defs with
  | none =>
    simp only [convDefs, if_true, pureExcept, Except.ok.injEq] at h
    exact ⟨[], h.symm, .inl ⟨rfl, rfl⟩⟩
  | some l =>
    simp only [convDefs, if_true] at h
    obtain ⟨ds, hds, h⟩ := exceptBindOk h
    simp only [pureExcept, Except.ok.injEq] at h
    exact ⟨ds, h.symm, .inr ⟨l, rfl, hds⟩⟩

theorem convDefs_nonroot {defs : Option (List (String × Serde))}
    {defsOut : Option (List (String × Schema))}
    (h : convDefs defs false = .ok defsOut) : defs = none ∧ defsOut = none := by
  cases defs with
  | none =>
    simp only [convDefs, Bool.false_eq_true, if_false, pureExcept, Except.ok.injEq] at h
    exact ⟨rfl, h.symm⟩
  | some l =>
    simp only [convDefs, Bool.false_eq_true, if_false] at h
    cases h

/-- A successful `from_serde` run is a successful `_from_serde` run whose
ref checks all passed. -/
theorem from_serde_ok_inv {w : Serde} {s : Schema}
    (h : Schema.from_serde w = .ok s) :
    from_serde_aux w true = .ok s ∧
    ∃ ds, s.defs = some ds ∧ Schema.check_refs ds s = .ok () ∧
      check_refs_list ds ds = .ok () := by
  simp only [Schema.from_serde] at h
  obtain ⟨s1, h1, h⟩ := exceptBindOk h
  cases hd : s1.defs with
  | none =>
    rw [hd] at h
    simp at h
  | some ds =>
    rw [hd] at h
    simp only [] at h
    obtain ⟨u, hcr, h⟩ := exceptBindOk h
    obtain ⟨u2, hcrl, h⟩ := exceptBindOk h
    simp only [pureExcept, Except.ok.injEq] at h
    subst h
    cases u
    cases u2
    exact ⟨h1, ds, hd, hcr, hcrl⟩

theorem convMapping_err_tag {tag : String} :
    ∀ {l : List (String × Serde)},
    (∀ p ∈ l, ∃ t, from_serde_aux p.2 false = .ok t ∧
      ∃ r o aa hr, t.form = .Properties r o aa hr) →
    (∃ p ∈ l, ∀ t, from_serde_aux p.2 false = .ok t →
      ∀ r o aa hr, t.form = .Properties r o aa hr →
        (hasKey r tag || hasKey o tag) = true) →
    convMapping tag l = .error (.AmbiguousProperty tag) := by
  intro l
  induction l with
  | nil =>
    rintro - ⟨p, hp, -⟩
    simp at hp
  | cons p rest ih =>
    intro hok hbad
    obtain ⟨np, sub⟩ := p
    obtain ⟨t, ht, r, o, aa, hr, hform⟩ := hok (np, sub) (.head rest)
    obtain ⟨defs2, form2, extra2⟩ := t
    simp only [Schema.form] at hform
    subst hform
    by_cases hk : (hasKey r tag || hasKey o tag) = true
    · have hk2 : hasKey r tag = true ∨ hasKey o tag = true := by simpa using hk
      rcases hk2 with ha | hb
      · simp [convMapping, ht, Schema.form, ha]
      · simp [convMapping, ht, Schema.form, hb]
    · obtain ⟨q, hq, hqbad⟩ := hbad
      rcases List.mem_cons.mp hq with rfl | hq2
      · exact absurd (hqbad _ ht r o aa hr (by simp [Schema.form])) hk
      · have hrest := ih (fun q2 hq2b => hok q2 (.tail _ hq2b)) ⟨q, hq2, hqbad⟩
        simp only [Bool.or_eq_true, not_or, Bool.not_eq_true] at hk
        simp [convMapping, ht, Schema.form, hk.1, hk.2, hrest]

theorem convMapping_err_nonprops {tag : String} :
    ∀ {l : List (String × Serde)},
    (∀ p ∈ l, ∃ t, from_serde_aux p.2 false = .ok t) →
    (∀ p ∈ l, ∀ t, from_serde_aux p.2 false = .ok t →
      ∀ r o aa hr, t.form = .Properties r o aa hr →
        hasKey r tag = false ∧ hasKey o tag = false) →
    (∃ p ∈ l, ∀ t, from_serde_aux p.2 false = .ok t →
      ∀ r o aa hr, t.form ≠ .Properties r o aa hr) →
    convMapping tag l = .error .InvalidForm := by
  intro l
  induction l with
  | nil =>
    rintro - - ⟨p, hp, -⟩
    simp at hp
  | cons p rest ih =>
    intro hok hnotag hbad
    obtain ⟨np, sub⟩ := p
    obtain ⟨t, ht⟩ := hok (np, sub) (.head rest)
    obtain ⟨defs2, form2, extra2⟩ := t
    cases form2 with
    | Properties r o aa hr =>
      have hno := hnotag (np, sub) (.head rest) _ ht r o aa hr (by simp [Schema.form])
      obtain ⟨q, hq, hqbad⟩ := hbad
      rcases List.mem_cons.mp hq with rfl | hq2
      · exact absurd (by simp [Schema.form]) (hqbad _ ht r o aa hr)
      · have hrest := ih (fun q2 hq2b => hok q2 (.tail _ hq2b))
          (fun q2 hq2b => hnotag q2 (.tail _ hq2b)) ⟨q, hq2, hqbad⟩
        simp [convMapping, ht, Schema.form, hno.1, hno.2, hrest]
    | Empty => simp [convMapping, ht, Schema.form]
    | Ref d => simp [convMapping, ht, Schema.form]
    | Typ ty => simp [convMapping, ht, Schema.form]
    | Enum vs => simp [convMapping, ht, Schema.form]
    | Elements s2 => simp [convMapping, ht, Schema.form]
    | Values s2 => simp [convMapping, ht, Schema.form]
    | Discriminator t2 m2 => simp [convMapping, ht, Schema.form]

theorem convMapping_all_good_ok {tag : String} :
    ∀ {l : List (String × Serde)},
    (∀ p ∈ l, ∃ t, from_serde_aux p.2 false = .ok t ∧
      ∃ r o aa hr, t.form = .Properties r o aa hr ∧
        hasKey r tag = false ∧ hasKey o tag = false) →
    ∃ out, convMapping tag l = .ok out := by
  intro l
  induction l with
  | nil =>
    intro _
    exact ⟨[], by simp [convMapping]⟩
  | cons p rest ih =>
    intro hok
    obtain ⟨np, sub⟩ := p
    obtain ⟨t, ht, r, o, aa, hr, hform, hr1, hr2⟩ := hok (np, sub) (.head rest)
    obtain ⟨defs2, form2, extra2⟩ := t
    simp only [Schema.form] at hform
    subst hform
    obtain ⟨out2, hout2⟩ := ih (fun q hq => hok q (.tail _ hq))
    refine ⟨(np, .mk defs2 (.Properties r o aa hr) extra2) :: out2, ?_⟩
    simp [convMapping, ht, Schema.form, hr1, hr2, hout2]

set_option maxHeartbeats 1000000 in
theorem printType_parseType {t : String} {ty : Ty}
    (h : parseType t = some ty) : printType ty = t := by
  simp only [parseType] at h
  split_ifs at h with h1 h2 h3 h4 h5 h6 h7 h8 h9 h10 h11
  · injection h with hy
    subst hy
    rw [h1]
    rfl
  · injection h with hy
    subst hy
    rw [h2]
    rfl
  · injection h with hy
    subst hy
    rw [h3]
    rfl
  · injection h with hy
    subst hy
    rw [h4]
    rfl
  · injection h with hy
    subst hy
    rw [h5]
    rfl
  · injection h with hy
    subst hy
    rw [h6]
    rfl
  · injection h with hy
    subst hy
    rw [h7]
    rfl
  · injection h with hy
    subst hy
    rw [h8]
    rfl
  · injection h with hy
    subst hy
    rw [h9]
    rfl
  · injection h with hy
    subst hy
    rw [h10]
    rfl
  · injection h with hy
    subst hy
    rw [h11]
    rfl

theorem convEntries_into : ∀ {l : List (String × Serde)} {out : List (String × Schema)},
    (∀ p ∈ l, ∀ s2, from_serde_aux p.2 false = .ok s2 →
      Schema.into_serde s2 = normWire false p.2) →
    convEntries l = .ok out → into_serde_entries out = normEntries l := by
  intro l
  induction l with
  | nil =>
    intro out IH h
    simp only [convEntries, pureExcept, Except.ok.injEq] at h
    subst h
    simp [into_serde_entries, normEntries]
  | cons p rest ih =>
    intro out IH h
    obtain ⟨np, sub⟩ := p
    simp only [convEntries] at h
    obtain ⟨t, ht, h⟩ := exceptBindOk h
    obtain ⟨rest2, hrest, h⟩ := exceptBindOk h
    simp only [pureExcept, Except.ok.injEq] at h
    subst h
    have he1 : Schema.into_serde t = normWire false sub := IH (np, sub) (.head rest) t ht
    have he2 : into_serde_entries rest2 = normEntries rest :=
      ih (fun q hq => IH q (.tail _ hq)) hrest
    simp [into_serde_entries, normEntries, he1, he2]

theorem convOptional_into {req : List (String × Schema)} :
    ∀ {l : List (String × Serde)} {out : List (String × Schema)},
    (∀ p ∈ l, ∀ s2, from_serde_aux p.2 false = .ok s2 →
      Schema.into_serde s2 = normWire false p.2) →
    convOptional l req = .ok out → into_serde_entries out = normEntries l := by
  intro l
  induction l with
  | nil =>
    intro out IH h
    simp only [convOptional, pureExcept, Except.ok.injEq] at h
    subst h
    simp [into_serde_entries, normEntries]
  | cons p rest ih =>
    intro out IH h
    obtain ⟨np, sub⟩ := p
    simp only [convOptional] at h
    by_cases hk : hasKey req np = true
    · rw [if_pos hk] at h
      cases h
    · rw [if_neg hk] at h
      obtain ⟨t, ht, h⟩ := exceptBindOk h
      obtain ⟨rest2, hrest, h⟩ := exceptBindOk h
      simp only [pureExcept, Except.ok.injEq] at h
      subst h
      have he1 : Schema.into_serde t = normWire false sub := IH (np, sub) (.head rest) t ht
      have he2 : into_serde_entries rest2 = normEntries rest :=
        ih (fun q hq => IH q (.tail _ hq)) hrest
      simp [into_serde_entries, normEntries, he1, he2]

theorem convMapping_into {tag : String} :
    ∀ {l : List (String × Serde)} {out : List (String × Schema)},
    (∀ p ∈ l, ∀ s2, from_serde_aux p.2 false = .ok s2 →
      Schema.into_serde s2 = normWire false p.2) →
    convMapping tag l = .ok out → into_serde_entries out = normEntries l := by
  intro l
  induction l with
  | nil =>
    intro out IH h
    simp only [convMapping, pureExcept, Except.ok.injEq] at h
    subst h
    simp [into_serde_entries, normEntries]
  | cons p rest ih =>
    intro out IH h
    obtain ⟨np, sub⟩ := p
    simp only [convMapping] at h
    obtain ⟨t, ht, h⟩ := exceptBindOk h
    obtain ⟨defs2, form2, extra2⟩ := t
    cases form2 with
    | Properties r o aa hr =>
      simp only [Schema.form] at h
      by_cases hk : (hasKey r tag || hasKey o tag) = true
      · rw [if_pos hk] at h
        cases h
      · rw [if_neg hk] at h
        obtain ⟨rest2, hrest, h⟩ := exceptBindOk h
        simp only [pureExcept, Except.ok.injEq] at h
        subst h
        have he1 : Schema.into_serde (.mk defs2 (.Properties r o aa hr) extra2) =
            normWire false sub := IH (np, sub) (.head rest) _ ht
        have he2 : into_serde_entries rest2 = normEntries rest :=
          ih (fun q hq => IH q (.tail _ hq)) hrest
        simp [into_serde_entries, normEntries, he1, he2]
    | Empty => simp [Schema.form] at h
    | Ref d => simp [Schema.form] at h
    | Typ ty => simp [Schema.form] at h
    | Enum vs => simp [Schema.form] at h
    | Elements s2 => simp [Schema.form] at h
    | Values s2 => simp [Schema.form] at h
    | Discriminator t2 m2 => simp [Schema.form] at h

/-- Core of the round-trip theorem: given a successful per-block chain
and induction hypotheses for every nested sub-schema, converting the
result back with `into_serde` produces exactly the normalized wire
value. -/
theorem form_round {defs : Option (List (String × Serde))} {addl : Option Bool}
    {rxf typ : Option String} {enm : Option (List String)} {elems : Option Serde}
    {props optProps : Option (List (String × Serde))} {vals : Option Serde}
    {disc : Option (String × List (String × Serde))} {extra : List (String × Value)}
    {r : Bool} {defsOut : Option (List (String × Schema))} {f2 f3 f4 f5 f6 f7 : Form}
    (IHdefs : ∀ l, defs = some l → ∀ p ∈ l, ∀ s2, from_serde_aux p.2 false = .ok s2 →
      Schema.into_serde s2 = normWire false p.2)
    (IHe : ∀ e, elems = some e → ∀ s2, from_serde_aux e false = .ok s2 →
      Schema.into_serde s2 = normWire false e)
    (IHp : ∀ l, props = some l → ∀ p ∈ l, ∀ s2, from_serde_aux p.2 false = .ok s2 →
      Schema.into_serde s2 = normWire false p.2)
    (IHo : ∀ l, optProps = some l → ∀ p ∈ l, ∀ s2, from_serde_aux p.2 false = .ok s2 →
      Schema.into_serde s2 = normWire false p.2)
    (IHv : ∀ v, vals = some v → ∀ s2, from_serde_aux v false = .ok s2 →
      Schema.into_serde s2 = normWire false v)
    (IHd : ∀ tg mp, disc = some (tg, mp) → ∀ p ∈ mp, ∀ s2, from_serde_aux p.2 false = .ok s2 →
      Schema.into_serde s2 = normWire false p.2)
    (h0 : convDefs defs r = .ok defsOut)
    (h2 : stepType typ (refStep rxf) = .ok f2)
    (h3 : stepEnum enm f2 = .ok f3)
    (h4 : stepElements elems f3 = .ok f4)
    (h5 : stepProps props optProps addl f4 = .ok f5)
    (h6 : stepValues vals f5 = .ok f6)
    (h7 : stepDisc disc f6 = .ok f7) :
    Schema.into_serde (.mk defsOut f7 extra) =
      normWire r (.mk defs addl rxf typ enm elems props optProps vals disc extra) := by
  cases disc with
  | some pdisc =>
    obtain ⟨tg, mp⟩ := pdisc
    obtain ⟨hf6e, m, hm, hf7⟩ := stepDisc_some_ok h7
    subst hf7
    subst hf6e
    obtain ⟨hvals, hf5e⟩ := stepValues_ok_empty h6
    subst hvals
    subst hf5e
    obtain ⟨hp, ho, hf4e⟩ := stepProps_ok_empty h5
    subst hp
    subst ho
    subst hf4e
    obtain ⟨hel, hf3e⟩ := stepElements_ok_empty h4
    subst hel
    subst hf3e
    obtain ⟨hen, hf2e⟩ := stepEnum_ok_empty h3
    subst hen
    subst hf2e
    obtain ⟨hty, hf1e⟩ := stepType_ok_empty h2
    subst hty
    have hr := refStep_empty hf1e
    subst hr
    have hM : into_serde_entries m = normEntries mp :=
      convMapping_into (IHd tg mp rfl) hm
    cases r with
    | false =>
      obtain ⟨hdn, hdon⟩ := convDefs_nonroot h0
      subst hdn
      subst hdon
      simp [Schema.into_serde, normWire, into_serde_entries, normEntries, hM]
    | true =>
      obtain ⟨ds, hds, hcase⟩ := convDefs_root_some h0
      subst hds
      rcases hcase with ⟨hdn, hdsnil⟩ | ⟨dl, hdl, hconv⟩
      · subst hdn
        subst hdsnil
        simp [Schema.into_serde, normWire, into_serde_entries, normEntries, hM]
      · subst hdl
        have hDE : into_serde_entries ds = normEntries dl :=
          convEntries_into (IHdefs dl rfl) hconv
        simp [Schema.into_serde, normWire, into_serde_entries, normEntries, hDE, hM]
  | none =>
    simp only [stepDisc_none, Except.ok.injEq] at h7
    subst h7
    cases vals with
    | some vv =>
      obtain ⟨hf5e, sub, hsub, hf6v⟩ := stepValues_some_ok h6
      subst hf6v
      subst hf5e
      obtain ⟨hp, ho, hf4e⟩ := stepProps_ok_empty h5
      subst hp
      subst ho
      subst hf4e
      obtain ⟨hel, hf3e⟩ := stepElements_ok_empty h4
      subst hel
      subst hf3e
      obtain ⟨hen, hf2e⟩ := stepEnum_ok_empty h3
      subst hen
      subst hf2e
      obtain ⟨hty, hf1e⟩ := stepType_ok_empty h2
      subst hty
      have hr := refStep_empty hf1e
      subst hr
      have hS : Schema.into_serde sub = normWire false vv := IHv vv rfl sub hsub
      cases r with
      | false =>
        obtain ⟨hdn, hdon⟩ := convDefs_nonroot h0
        subst hdn
        subst hdon
        simp [Schema.into_serde, normWire, into_serde_entries, normEntries, hS]
      | true =>
        obtain ⟨ds, hds, hcase⟩ := convDefs_root_some h0
        subst hds
        rcases hcase with ⟨hdn, hdsnil⟩ | ⟨dl, hdl, hconv⟩
        · subst hdn
          subst hdsnil
          simp [Schema.into_serde, normWire, into_serde_entries, normEntries, hS]
        · subst hdl
          have hDE : into_serde_entries ds = normEntries dl :=
            convEntries_into (IHdefs dl rfl) hconv
          simp [Schema.into_serde, normWire, into_serde_entries, normEntries, hDE, hS]
    | none =>
      simp only [stepValues_none, Except.ok.injEq] at h6
      subst h6
      by_cases hg : (props.isSome || optProps.isSome) = true
      · obtain ⟨hf4e, req, opt, hreq, hopt, hf5p⟩ := stepProps_group_ok hg h5
        subst hf5p
        subst hf4e
        obtain ⟨hel, hf3e⟩ := stepElements_ok_empty h4
        subst hel
        subst hf3e
        obtain ⟨hen, hf2e⟩ := stepEnum_ok_empty h3
        subst hen
        subst hf2e
        obtain ⟨hty, hf1e⟩ := stepType_ok_empty h2
        subst hty
        have hr := refStep_empty hf1e
        subst hr
        cases props with
        | some lp =>
          simp only [convProps] at hreq
          have hR : into_serde_entries req = normEntries lp :=
            convEntries_into (IHp lp rfl) hreq
          cases optProps with
          | some lo =>
            simp only [convOptProps] at hopt
            have hO : into_serde_entries opt = normEntries lo :=
              convOptional_into (IHo lo rfl) hopt
            by_cases hloe : lo = []
            · subst hloe
              simp only [convOptional, pureExcept, Except.ok.injEq] at hopt
              subst hopt
              cases r with
              | false =>
                obtain ⟨hdn, hdon⟩ := convDefs_nonroot h0
                subst hdn
                subst hdon
                simp [Schema.into_serde, normWire, into_serde_entries, normEntries, hR]
              | true =>
                obtain ⟨ds, hds, hcase⟩ := convDefs_root_some h0
                subst hds
                rcases hcase with ⟨hdn, hdsnil⟩ | ⟨dl, hdl, hconv⟩
                · subst hdn
                  subst hdsnil
                  simp [Schema.into_serde, normWire, into_serde_entries, normEntries, hR]
                · subst hdl
                  have hDE : into_serde_entries ds = normEntries dl :=
                    convEntries_into (IHdefs dl rfl) hconv
                  simp [Schema.into_serde, normWire, into_serde_entries, normEntries, hDE, hR]
            · have hlen := (convOptional_forall₂ hopt).1.length_eq
              have hloe2 : lo.isEmpty = false := by
                cases lo with
                | nil => exact absurd rfl hloe
                | cons a b => rfl
              have hopte : opt.isEmpty = false := by
                cases opt with
                | nil =>
                  cases lo with
                  | nil => exact absurd rfl hloe
                  | cons a b => simp at hlen
                | cons a b => rfl
              cases r with
              | false =>
                obtain ⟨hdn, hdon⟩ := convDefs_nonroot h0
                subst hdn
                subst hdon
                simp [Schema.into_serde, normWire, into_serde_entries, normEntries, hR, hO, hloe2, hopte]
              | true =>
                obtain ⟨ds, hds, hcase⟩ := convDefs_root_some h0
                subst hds
                rcases hcase with ⟨hdn, hdsnil⟩ | ⟨dl, hdl, hconv⟩
                · subst hdn
                  subst hdsnil
                  simp [Schema.into_serde, normWire, into_serde_entries, normEntries, hR, hO, hloe2, hopte]
                · subst hdl
                  have hDE : into_serde_entries ds = normEntries dl :=
                    convEntries_into (IHdefs dl rfl) hconv
                  simp [Schema.into_serde, normWire, into_serde_entries, normEntries, hDE, hR, hO, hloe2, hopte]
          | none =>
            simp only [convOptProps, pureExcept, Except.ok.injEq] at hopt
            subst hopt
            cases r with
            | false =>
              obtain ⟨hdn, hdon⟩ := convDefs_nonroot h0
              subst hdn
              subst hdon
              simp [Schema.into_serde, normWire, into_serde_entries, normEntries, hR]
            | true =>
              obtain ⟨ds, hds, hcase⟩ := convDefs_root_some h0
              subst hds
              rcases hcase with ⟨hdn, hdsnil⟩ | ⟨dl, hdl, hconv⟩
              · subst hdn
                subst hdsnil
                simp [Schema.into_serde, normWire, into_serde_entries, normEntries, hR]
              · subst hdl
                have hDE : into_serde_entries ds = normEntries dl :=
                  convEntries_into (IHdefs dl rfl) hconv
                simp [Schema.into_serde, normWire, into_serde_entries, normEntries, hDE, hR]
        | none =>
          simp only [convProps, pureExcept, Except.ok.injEq] at hreq
          subst hreq
          cases optProps with
          | some lo =>
            simp only [convOptProps] at hopt
            have hO : into_serde_entries opt = normEntries lo :=
              convOptional_into (IHo lo rfl) hopt
            cases r with
            | false =>
              obtain ⟨hdn, hdon⟩ := convDefs_nonroot h0
              subst hdn
              subst hdon
              simp [Schema.into_serde, normWire, into_serde_entries, normEntries, hO]
            | true =>
              obtain ⟨ds, hds, hcase⟩ := convDefs_root_some h0
              subst hds
              rcases hcase with ⟨hdn, hdsnil⟩ | ⟨dl, hdl, hconv⟩
              · subst hdn
                subst hdsnil
                simp [Schema.into_serde, normWire, into_serde_entries, normEntries, hO]
              · subst hdl
                have hDE : into_serde_entries ds = normEntries dl :=
                  convEntries_into (IHdefs dl rfl) hconv
                simp [Schema.into_serde, normWire, into_serde_entries, normEntries, hDE, hO]
          | none => simp at hg
      · have hpn : props = none := by
          cases props
          · rfl
          · simp at hg
        have hon : optProps = none := by
          cases optProps
          · rfl
          · simp [hpn] at hg
        subst hpn
        subst hon
        simp only [stepProps_none, Except.ok.injEq] at h5
        subst h5
        cases elems with
        | some ee =>
          obtain ⟨hf3e, sub, hsub, hf4v⟩ := stepElements_some_ok h4
          subst hf4v
          subst hf3e
          obtain ⟨hen, hf2e⟩ := stepEnum_ok_empty h3
          subst hen
          subst hf2e
          obtain ⟨hty, hf1e⟩ := stepType_ok_empty h2
          subst hty
          have hr := refStep_empty hf1e
          subst hr
          have hS : Schema.into_serde sub = normWire false ee := IHe ee rfl sub hsub
          cases r with
          | false =>
            obtain ⟨hdn, hdon⟩ := convDefs_nonroot h0
            subst hdn
            subst hdon
            simp [Schema.into_serde, normWire, into_serde_entries, normEntries, hS]
          | true =>
            obtain ⟨ds, hds, hcase⟩ := convDefs_root_some h0
            subst hds
            rcases hcase with ⟨hdn, hdsnil⟩ | ⟨dl, hdl, hconv⟩
            · subst hdn
              subst hdsnil
              simp [Schema.into_serde, normWire, into_serde_entries, normEntries, hS]
            · subst hdl
              have hDE : into_serde_entries ds = normEntries dl :=
                convEntries_into (IHdefs dl rfl) hconv
              simp [Schema.into_serde, normWire, into_serde_entries, normEntries, hDE, hS]
        | none =>
          simp only [stepElements_none, Except.ok.injEq] at h4
          subst h4
          cases enm with
          | some el =>
            obtain ⟨hf2e, hne, hnd, hf3v⟩ := stepEnum_some_ok h3
            subst hf3v
            subst hf2e
            obtain ⟨hty, hf1e⟩ := stepType_ok_empty h2
            subst hty
            have hr := refStep_empty hf1e
            subst hr
            cases r with
            | false =>
              obtain ⟨hdn, hdon⟩ := convDefs_nonroot h0
              subst hdn
              subst hdon
              simp [Schema.into_serde, normWire, into_serde_entries, normEntries]
            | true =>
              obtain ⟨ds, hds, hcase⟩ := convDefs_root_some h0
              subst hds
              rcases hcase with ⟨hdn, hdsnil⟩ | ⟨dl, hdl, hconv⟩
              · subst hdn
                subst hdsnil
                simp [Schema.into_serde, normWire, into_serde_entries, normEntries]
              · subst hdl
                have hDE : into_serde_entries ds = normEntries dl :=
                  convEntries_into (IHdefs dl rfl) hconv
                simp [Schema.into_serde, normWire, into_serde_entries, normEntries, hDE]
          | none =>
            simp only [stepEnum_none, Except.ok.injEq] at h3
            subst h3
            cases typ with
            | some t =>
              obtain ⟨hf1e, ty, hty, hf2v⟩ := stepType_some_ok h2
              subst hf2v
              have hr := refStep_empty hf1e
              subst hr
              have hPT : printType ty = t := printType_parseType hty
              cases r with
              | false =>
                obtain ⟨hdn, hdon⟩ := convDefs_nonroot h0
                subst hdn
                subst hdon
                simp [Schema.into_serde, normWire, into_serde_entries, normEntries, hPT]
              | true =>
                obtain ⟨ds, hds, hcase⟩ := convDefs_root_some h0
                subst hds
                rcases hcase with ⟨hdn, hdsnil⟩ | ⟨dl, hdl, hconv⟩
                · subst hdn
                  subst hdsnil
                  simp [Schema.into_serde, normWire, into_serde_entries, normEntries, hPT]
                · subst hdl
                  have hDE : into_serde_entries ds = normEntries dl :=
                    convEntries_into (IHdefs dl rfl) hconv
                  simp [Schema.into_serde, normWire, into_serde_entries, normEntries, hDE, hPT]
            | none =>
              simp only [stepType_none, Except.ok.injEq] at h2
              subst h2
              cases rxf with
              | some rr =>
                cases r with
                | false =>
                  obtain ⟨hdn, hdon⟩ := convDefs_nonroot h0
                  subst hdn
                  subst hdon
                  simp [Schema.into_serde, normWire, into_serde_entries, normEntries, refStep]
                | true =>
                  obtain ⟨ds, hds, hcase⟩ := convDefs_root_some h0
                  subst hds
                  rcases hcase with ⟨hdn, hdsnil⟩ | ⟨dl, hdl, hconv⟩
                  · subst hdn
                    subst hdsnil
                    simp [Schema.into_serde, normWire, into_serde_entries, normEntries, refStep]
                  · subst hdl
                    have hDE : into_serde_entries ds = normEntries dl :=
                      convEntries_into (IHdefs dl rfl) hconv
                    simp [Schema.into_serde, normWire, into_serde_entries, normEntries, hDE, refStep]
              | none =>
                cases r with
                | false =>
                  obtain ⟨hdn, hdon⟩ := convDefs_nonroot h0
                  subst hdn
                  subst hdon
                  simp [Schema.into_serde, normWire, into_serde_entries, normEntries, refStep]
                | true =>
                  obtain ⟨ds, hds, hcase⟩ := convDefs_root_some h0
                  subst hds
                  rcases hcase with ⟨hdn, hdsnil⟩ | ⟨dl, hdl, hconv⟩
                  · subst hdn
                    subst hdsnil
                    simp [Schema.into_serde, normWire, into_serde_entries, normEntries, refStep]
                  · subst hdl
                    have hDE : into_serde_entries ds = normEntries dl :=
                      convEntries_into (IHdefs dl rfl) hconv
                    simp [Schema.into_serde, normWire, into_serde_entries, normEntries, hDE, refStep]

theorem round_nonroot_aux : ∀ (n : Nat) (w : Serde), sizeOf w ≤ n →
    ∀ (s : Schema), from_serde_aux w false = .ok s →
      Schema.into_serde s = normWire false w := by
  intro n
  induction n with
  | zero =>
    intro w hw
    obtain ⟨defs, addl, rxf, typ, enm, elems, props, optProps, vals, disc, extra⟩ := w
    simp only [Serde.mk.sizeOf_spec] at hw
    omega
  | succ n ih =>
    intro w hw s h
    obtain ⟨defs, addl, rxf, typ, enm, elems, props, optProps, vals, disc, extra⟩ := w
    simp only [Serde.mk.sizeOf_spec] at hw
    obtain ⟨defsOut, f2, f3, f4, f5, f6, f7, h0, h2, h3, h4, h5, h6, h7, hs⟩ :=
      from_serde_aux_ok_chain h
    subst hs
    refine form_round ?_ ?_ ?_ ?_ ?_ ?_ h0 h2 h3 h4 h5 h6 h7
    · intro l hl p hp s2 hcv
      subst hl
      have h1 : sizeOf p.2 < sizeOf l := sizeOf_snd_lt_of_mem hp
      simp only [Option.some.sizeOf_spec] at hw
      exact ih p.2 (by omega) s2 hcv
    · intro e he s2 hcv
      subst he
      simp only [Option.some.sizeOf_spec] at hw
      exact ih e (by omega) s2 hcv
    · intro l hl p hp s2 hcv
      subst hl
      have h1 : sizeOf p.2 < sizeOf l := sizeOf_snd_lt_of_mem hp
      simp only [Option.some.sizeOf_spec] at hw
      exact ih p.2 (by omega) s2 hcv
    · intro l hl p hp s2 hcv
      subst hl
      have h1 : sizeOf p.2 < sizeOf l := sizeOf_snd_lt_of_mem hp
      simp only [Option.some.sizeOf_spec] at hw
      exact ih p.2 (by omega) s2 hcv
    · intro v hv s2 hcv
      subst hv
      simp only [Option.some.sizeOf_spec] at hw
      exact ih v (by omega) s2 hcv
    · intro tg mp hd p hp s2 hcv
      subst hd
      have h1 : sizeOf p.2 < sizeOf mp := sizeOf_snd_lt_of_mem hp
      simp only [Option.some.sizeOf_spec, Prod.mk.sizeOf_spec] at hw
      exact ih p.2 (by omega) s2 hcv

/-- Round trip for non-root conversions. -/
theorem round_nonroot (w : Serde) (s : Schema)
    (h : from_serde_aux w false = .ok s) :
    Schema.into_serde s = normWire false w :=
  round_nonroot_aux (sizeOf w) w le_rfl s h

/-- Round trip for root conversions. -/
theorem round_root (w : Serde) (s : Schema)
    (h : from_serde_aux w true = .ok s) :
    Schema.into_serde s = normWire true w := by
  obtain ⟨defs, addl, rxf, typ, enm, elems, props, optProps, vals, disc, extra⟩ := w
  obtain ⟨defsOut, f2, f3, f4, f5, f6, f7, h0, h2, h3, h4, h5, h6, h7, hs⟩ :=
    from_serde_aux_ok_chain h
  subst hs
  refine form_round ?_ ?_ ?_ ?_ ?_ ?_ h0 h2 h3 h4 h5 h6 h7
  · intro l hl p hp s2 hcv
    exact round_nonroot _ _ hcv
  · intro e he s2 hcv
    exact round_nonroot _ _ hcv
  · intro l hl p hp s2 hcv
    exact round_nonroot _ _ hcv
  · intro l hl p hp s2 hcv
    exact round_nonroot _ _ hcv
  · intro v hv s2 hcv
    exact round_nonroot _ _ hcv
  · intro tg mp hd p hp s2 hcv
    exact round_nonroot _ _ hcv

theorem forall₂_mem_right {α β : Type} {R : α → β → Prop} :
    ∀ {l : List α} {out : List β}, List.Forall₂ R l out →
      ∀ q ∈ out, ∃ p ∈ l, R p q := by
  intro l out h
  induction h with
  | nil => simp
  | cons hpq hrest ih =>
    rename_i p q l2 out2
    intro q2 hq2
    rcases List.mem_cons.mp hq2 with rfl | hq3
    · exact ⟨p, .head l2, hpq⟩
    · obtain ⟨p2, hp2, hr⟩ := ih q2 hq3
      exact ⟨p2, .tail _ hp2, hr⟩

theorem nonRootList_iff {l : List (String × Schema)} :
    nonRootList l = true ↔ ∀ p ∈ l, nonRootTree p.2 = true := by
  induction l with
  | nil => simp [nonRootList]
  | cons p rest ih =>
    obtain ⟨k, s⟩ := p
    simp only [nonRootList, Bool.and_eq_true, ih]
    constructor
    · rintro ⟨h1, h2⟩ q hq
      rcases List.mem_cons.mp hq with rfl | hq2
      · exact h1
      · exact h2 q hq2
    · intro h
      exact ⟨h (k, s) (.head rest), fun q hq => h q (.tail _ hq)⟩

theorem chain_formNonRoot {addl : Option Bool} {rxf typ : Option String}
    {enm : Option (List String)} {elems : Option Serde}
    {props optProps : Option (List (String × Serde))} {vals : Option Serde}
    {disc : Option (String × List (String × Serde))} {f2 f3 f4 f5 f6 f7 : Form}
    (IHe : ∀ e, elems = some e → ∀ s2, from_serde_aux e false = .ok s2 →
      nonRootTree s2 = true)
    (IHp : ∀ l, props = some l → ∀ p ∈ l, ∀ s2, from_serde_aux p.2 false = .ok s2 →
      nonRootTree s2 = true)
    (IHo : ∀ l, optProps = some l → ∀ p ∈ l, ∀ s2, from_serde_aux p.2 false = .ok s2 →
      nonRootTree s2 = true)
    (IHv : ∀ v, vals = some v → ∀ s2, from_serde_aux v false = .ok s2 →
      nonRootTree s2 = true)
    (IHd : ∀ tg mp, disc = some (tg, mp) → ∀ p ∈ mp, ∀ s2, from_serde_aux p.2 false = .ok s2 →
      nonRootTree s2 = true)
    (h2 : stepType typ (refStep rxf) = .ok f2)
    (h3 : stepEnum enm f2 = .ok f3)
    (h4 : stepElements elems f3 = .ok f4)
    (h5 : stepProps props optProps addl f4 = .ok f5)
    (h6 : stepValues vals f5 = .ok f6)
    (h7 : stepDisc disc f6 = .ok f7) :
    formNonRoot f7 = true := by
  cases disc with
  | some pdisc =>
    obtain ⟨tg, mp⟩ := pdisc
    obtain ⟨hf6e, m, hm, hf7⟩ := stepDisc_some_ok h7
    subst hf7
    simp only [formNonRoot]
    rw [nonRootList_iff]
    intro q hq
    obtain ⟨p, hp, hname, hconv, -⟩ :=
      forall₂_mem_right (convMapping_forall₂ hm) q hq
    exact IHd tg mp rfl p hp q.2 hconv
  | none =>
    simp only [stepDisc_none, Except.ok.injEq] at h7
    subst h7
    cases vals with
    | some vv =>
      obtain ⟨hf5e, sub, hsub, hf6v⟩ := stepValues_some_ok h6
      subst hf6v
      simp only [formNonRoot]
      exact IHv vv rfl sub hsub
    | none =>
      simp only [stepValues_none, Except.ok.injEq] at h6
      subst h6
      by_cases hg : (props.isSome || optProps.isSome) = true
      · obtain ⟨hf4e, req, opt, hreq, hopt, hf5p⟩ := stepProps_group_ok hg h5
        subst hf5p
        simp only [formNonRoot, Bool.and_eq_true]
        constructor
        · rw [nonRootList_iff]
          intro q hq
          cases props with
          | some lp =>
            simp only [convProps] at hreq
            obtain ⟨p, hp, hname, hconv⟩ :=
              forall₂_mem_right (convEntries_forall₂ hreq) q hq
            exact IHp lp rfl p hp q.2 hconv
          | none =>
            simp only [convProps, pureExcept, Except.ok.injEq] at hreq
            subst hreq
            simp at hq
        · rw [nonRootList_iff]
          intro q hq
          cases optProps with
          | some lo =>
            simp only [convOptProps] at hopt
            obtain ⟨p, hp, hname, hconv⟩ :=
              forall₂_mem_right (convOptional_forall₂ hopt).1 q hq
            exact IHo lo rfl p hp q.2 hconv
          | none =>
            simp only [convOptProps, pureExcept, Except.ok.injEq] at hopt
            subst hopt
            simp at hq
      · have hpn : props = none := by
          cases props
          · rfl
          · simp at hg
        have hon : optProps = none := by
          cases optProps
          · rfl
          · simp [hpn] at hg
        subst hpn
        subst hon
        simp only [stepProps_none, Except.ok.injEq] at h5
        subst h5
        cases elems with
        | some ee =>
          obtain ⟨hf3e, sub, hsub, hf4v⟩ := stepElements_some_ok h4
          subst hf4v
          simp only [formNonRoot]
          exact IHe ee rfl sub hsub
        | none =>
          simp only [stepElements_none, Except.ok.injEq] at h4
          subst h4
          cases enm with
          | some el =>
            obtain ⟨hf2e, hne, hnd, hf3v⟩ := stepEnum_some_ok h3
            subst hf3v
            simp [formNonRoot]
          | none =>
            simp only [stepEnum_none, Except.ok.injEq] at h3
            subst h3
            cases typ with
            | some t =>
              obtain ⟨hf1e, ty, hty, hf2v⟩ := stepType_some_ok h2
              subst hf2v
              simp [formNonRoot]
            | none =>
              simp only [stepType_none, Except.ok.injEq] at h2
              subst h2
              cases rxf with
              | some rr => simp [refStep, formNonRoot]
              | none => simp [refStep, formNonRoot]

theorem nonroot_inv_aux : ∀ (n : Nat) (w : Serde), sizeOf w ≤ n →
    ∀ (s : Schema), from_serde_aux w false = .ok s → nonRootTree s = true := by
  intro n
  induction n with
  | zero =>
    intro w hw
    obtain ⟨defs, addl, rxf, typ, enm, elems, props, optProps, vals, disc, extra⟩ := w
    simp only [Serde.mk.sizeOf_spec] at hw
    omega
  | succ n ih =>
    intro w hw s h
    obtain ⟨defs, addl, rxf, typ, enm, elems, props, optProps, vals, disc, extra⟩ := w
    simp only [Serde.mk.sizeOf_spec] at hw
    obtain ⟨defsOut, f2, f3, f4, f5, f6, f7, h0, h2, h3, h4, h5, h6, h7, hs⟩ :=
      from_serde_aux_ok_chain h
    subst hs
    obtain ⟨hdn, hdon⟩ := convDefs_nonroot h0
    subst hdon
    simp only [nonRootTree, Option.isNone_none, Bool.true_and]
    refine chain_formNonRoot ?_ ?_ ?_ ?_ ?_ h2 h3 h4 h5 h6 h7
    · intro e he s2 hcv
      subst he
      simp only [Option.some.sizeOf_spec] at hw
      exact ih e (by omega) s2 hcv
    · intro l hl p hp s2 hcv
      subst hl
      have h1 : sizeOf p.2 < sizeOf l := sizeOf_snd_lt_of_mem hp
      simp only [Option.some.sizeOf_spec] at hw
      exact ih p.2 (by omega) s2 hcv
    · intro l hl p hp s2 hcv
      subst hl
      have h1 : sizeOf p.2 < sizeOf l := sizeOf_snd_lt_of_mem hp
      simp only [Option.some.sizeOf_spec] at hw
      exact ih p.2 (by omega) s2 hcv
    · intro v hv s2 hcv
      subst hv
      simp only [Option.some.sizeOf_spec] at hw
      exact ih v (by omega) s2 hcv
    · intro tg mp hd p hp s2 hcv
      subst hd
      have h1 : sizeOf p.2 < sizeOf mp := sizeOf_snd_lt_of_mem hp
      simp only [Option.some.sizeOf_spec, Prod.mk.sizeOf_spec] at hw
      exact ih p.2 (by omega) s2 hcv

/-- Every schema produced by a non-root conversion is recursively
non-root. -/
theorem nonroot_inv (w : Serde) (s : Schema)
    (h : from_serde_aux w false = .ok s) : nonRootTree s = true :=
  nonroot_inv_aux (sizeOf w) w le_rfl s h

/-- Root conversions produce a definitions table (empty when the wire
value had none), a recursively non-root form, and recursively non-root
definitions. -/
theorem root_inv (w : Serde) (s : Schema)
    (h : from_serde_aux w true = .ok s) :
    ∃ ds, s.defs = some ds ∧ formNonRoot s.form = true ∧
      nonRootList ds = true ∧ (w.defs = none → ds = []) := by
  obtain ⟨defs, addl, rxf, typ, enm, elems, props, optProps, vals, disc, extra⟩ := w
  obtain ⟨defsOut, f2, f3, f4, f5, f6, f7, h0, h2, h3, h4, h5, h6, h7, hs⟩ :=
    from_serde_aux_ok_chain h
  subst hs
  obtain ⟨ds, hds, hcase⟩ := convDefs_root_some h0
  subst hds
  refine ⟨ds, by simp [Schema.defs], ?_, ?_, ?_⟩
  · simp only [Schema.form]
    refine chain_formNonRoot ?_ ?_ ?_ ?_ ?_ h2 h3 h4 h5 h6 h7
    · intro e he s2 hcv
      exact nonroot_inv _ _ hcv
    · intro l hl p hp s2 hcv
      exact nonroot_inv _ _ hcv
    · intro l hl p hp s2 hcv
      exact nonroot_inv _ _ hcv
    · intro v hv s2 hcv
      exact nonroot_inv _ _ hcv
    · intro tg mp hd p hp s2 hcv
      exact nonroot_inv _ _ hcv
  · rcases hcase with ⟨hdn, hdsnil⟩ | ⟨dl, hdl, hconv⟩
    · subst hdsnil
      simp [nonRootList]
    · rw [nonRootList_iff]
      intro q hq
      obtain ⟨p, hp, hname, hconv2⟩ :=
        forall₂_mem_right (convEntries_forall₂ hconv) q hq
      exact nonroot_inv _ _ hconv2
  · intro hdefs
    simp only [Serde.defs] at hdefs
    rcases hcase with ⟨hdn, hdsnil⟩ | ⟨dl, hdl, hconv⟩
    · exact hdsnil
    · rw [hdefs] at hdl
      cases hdl

/-- A keyword block that finds the form already set either leaves it
unchanged (keyword absent) or fails: `elements`. -/
theorem stepElements_ok_stay {e : Option Serde} {f f2 : Form}
    (hf : f.isEmptyF = false) (h : stepElements e f = .ok f2) : f2 = f := by
  cases e with
  | none =>
    simp at h
    exact h.symm
  | some v =>
    rw [stepElements.eq_def] at h
    simp [hf] at h

/-- A keyword block that finds the form already set either leaves it
unchanged or fails: `properties`/`optionalProperties`. -/
theorem stepProps_ok_stay {props optProps : Option (List (String × Serde))}
    {addl : Option Bool} {f f2 : Form}
    (hf : f.isEmptyF = false) (h : stepProps props optProps addl f = .ok f2) :
    f2 = f := by
  rw [stepProps.eq_def] at h
  by_cases hg : (props.isSome || optProps.isSome) = true
  · rw [if_pos hg] at h
    simp [hf] at h
  · simp only [Bool.not_eq_true] at hg
    rw [hg] at h
    simp at h
    exact h.symm

/-- A keyword block that finds the form already set either leaves it
unchanged or fails: `values`. -/
theorem stepValues_ok_stay {v : Option Serde} {f f2 : Form}
    (hf : f.isEmptyF = false) (h : stepValues v f = .ok f2) : f2 = f := by
  cases v with
  | none =>
    simp at h
    exact h.symm
  | some v0 =>
    rw [stepValues.eq_def] at h
    simp [hf] at h

/-- A keyword block that finds the form already set either leaves it
unchanged or fails: `discriminator`. -/
theorem stepDisc_ok_stay {d : Option (String × List (String × Serde))} {f f2 : Form}
    (hf : f.isEmptyF = false) (h : stepDisc d f = .ok f2) : f2 = f := by
  cases d with
  | none =>
    simp at h
    exact h.symm
  | some p =>
    obtain ⟨tg, mp⟩ := p
    rw [stepDisc.eq_def] at h
    simp [hf] at h

theorem validate_refA : ∀ (d m c : Nat) (ip sp : List Token) (pt : Option String)
    (dd : Option (List (String × Schema))) (ex : List (String × Value)),
    validate cyclicDefs m c (.mk dd (.Ref "a") ex) (nestArr d) ip sp pt =
      if c + d + 1 ≤ m then
        .ok [⟨ip ++ List.replicate d (.idx 0),
              sp ++ List.replicate (d + 1) (.str "elements")⟩]
      else .error .MaxDepthExceeded := by
  intro d
  induction d with
  | zero =>
    intro m c ip sp pt dd ex
    rw [validate.eq_def]
    by_cases hcm : c + 1 > m
    · simp [hcm, if_neg (show ¬(c + 0 + 1 ≤ m) by omega)]
    · rw [if_pos (show c + 0 + 1 ≤ m by omega)]
      simp only [hcm, if_false]
      simp [cyclicDefs, lookupKey, nestArr]
      rw [validate.eq_def]
      simp [elemsRefA, nestArr]
  | succ d ih =>
    intro m c ip sp pt dd ex
    simp only [cyclicDefs, elemsRefA, refASchema] at ih
    simp only [cyclicDefs, elemsRefA, refASchema]
    rw [validate.eq_def]
    by_cases hcm : c + 1 > m
    · simp [hcm, if_neg (show ¬(c + (d + 1) + 1 ≤ m) by omega)]
    · simp only [hcm, if_false]
      simp [lookupKey, nestArr]
      rw [validate.eq_def]
      simp only []
      rw [vElems.eq_def]
      have hvnil : vElems [("a", Schema.mk none (.Elements (.mk none (.Ref "a") [])) [])]
          m (c + 1) (.mk none (.Ref "a") []) [] 1 ip sp = .ok [] := by
        rw [vElems.eq_def]
        rfl
      by_cases hmd : c + 1 + d + 1 ≤ m
      · have hmd2 : c + (d + 1) + 1 ≤ m := by omega
        simp [ih, hmd, hmd2, hvnil, List.replicate_succ, List.append_assoc]
      · have hmd2 : ¬(c + (d + 1) + 1 ≤ m) := by omega
        simp [ih, hmd, hmd2, hvnil]

/-- Claim C1 (amended): for every wire value accepted by `from_serde`,
converting the resulting schema back with `into_serde` yields not the
original wire value but its `normWire` normalization, which in addition
to the documented required/optional-presence normalization drops
`additionalProperties` entirely and materializes an absent root
`definitions` table as a present empty one. -/
theorem c1_round_trip_normalized (w : Serde) (s : Schema)
    (h : Schema.from_serde w = .ok s) :
    Schema.into_serde s = normWire true w :=
  round_root w s (from_serde_ok_inv h).1

/-- Witness for C1 at the empty wire schema. -/
theorem c1_round_trip_normalized_witness :
    Schema.into_serde (Schema.mk (some []) Form.Empty []) = normWire true wEmpty :=
  c1_round_trip_normalized wEmpty (Schema.mk (some []) Form.Empty [])
    (by simp [Schema.from_serde, from_serde_aux, convDefs, convEntries, convOptional,
      convMapping, stepType, stepEnum, enumDedup, refStep, stepElements, stepProps,
      stepValues, stepDisc, parseType, Form.isEmptyF, hasKey, Schema.check_refs,
      check_refs_list, Schema.form, Schema.defs, wEmpty])

/-- Counterexample to C1 as stated: `wAddl` carries
`additionalProperties: true`, `from_serde` accepts it, and the keyword
does not reappear in the output of `into_serde`. -/
theorem c1_counterexample :
    Schema.from_serde wAddl = .ok sAddl ∧
    wAddl.additional_props = some true ∧
    (Schema.into_serde sAddl).additional_props = none := by
  refine ⟨?_, rfl, ?_⟩
  · simp [Schema.from_serde, from_serde_aux, convDefs, convEntries, convOptional,
      convMapping, stepType, stepEnum, enumDedup, refStep, stepElements, stepProps,
      stepValues, stepDisc, parseType, Form.isEmptyF, hasKey, Schema.check_refs,
      check_refs_list, Schema.form, Schema.defs, wAddl, sAddl]
  · simp [Schema.into_serde, into_serde_entries, sAddl, Serde.additional_props]

/-- Claim C2: given a successful `_from_serde` build of the root tree
with definitions table `ds`, the full `from_serde` succeeds exactly when
every `Ref` name reachable from the root's form and from every
definition's sub-tree is a key of `ds`; and whenever it instead fails,
the error is `NoSuchDefinition` for a name that is not a key of `ds`. -/
theorem c2_ref_resolution (w : Serde) (s0 : Schema) (ds : List (String × Schema))
    (haux : from_serde_aux w true = .ok s0) (hds : s0.defs = some ds) :
    (Schema.from_serde w = .ok s0 ↔
      ((∀ nm ∈ refNames s0, hasKey ds nm = true) ∧
       (∀ p ∈ ds, ∀ nm ∈ refNames p.2, hasKey ds nm = true))) ∧
    (∀ e, Schema.from_serde w = .error e →
      ∃ nm, e = .NoSuchDefinition nm ∧ hasKey ds nm = false) := by
  have hfs : Schema.from_serde w =
      (Schema.check_refs ds s0 >>= fun _ => check_refs_list ds ds >>= fun _ =>
        pure s0) := by
    simp only [Schema.from_serde, haux, okBind, hds]
  constructor
  · rw [hfs]
    constructor
    · intro h
      obtain ⟨u, hu, h2⟩ := exceptBindOk h
      obtain ⟨u2, hu2, h3⟩ := exceptBindOk h2
      refine ⟨(check_refs_ok_iff ds s0).mp (by cases u; exact hu), ?_⟩
      intro p hp nm hnm
      have hq := check_refs_list_decomp.mp (by cases u2; exact hu2) p hp
      exact (check_refs_ok_iff ds p.2).mp hq nm hnm
    · rintro ⟨hroot, hdefs⟩
      rw [(check_refs_ok_iff ds s0).mpr hroot]
      simp only [okBind]
      rw [check_refs_list_decomp.mpr
        (fun p hp => (check_refs_ok_iff ds p.2).mpr (hdefs p hp))]
      simp
  · intro e he
    rw [hfs] at he
    rcases exceptBindError_inv he with h1 | ⟨u, hu, h2⟩
    · exact check_refs_error_shape h1
    · rcases exceptBindError_inv h2 with h3 | ⟨u2, hu2, h4⟩
      · exact check_refs_list_error_shape
          (by intro p hp e2 h5; exact check_refs_error_shape h5) h3
      · simp at h4

/-- Witness for C2: `w2ref` resolves cleanly, so `from_serde` accepts it. -/
theorem c2_ref_resolution_witness : Schema.from_serde w2ref = .ok s2ref :=
  ((c2_ref_resolution w2ref s2ref [("a", .mk none .Empty [])]
      (by simp [from_serde_aux, convDefs, convEntries, convOptional, convMapping,
        stepType, stepEnum, enumDedup, refStep, stepElements, stepProps, stepValues,
        stepDisc, parseType, Form.isEmptyF, hasKey, Schema.form, Schema.defs,
        w2ref, wEmpty, s2ref])
      rfl).1).mpr
    ⟨by simp [s2ref, refNames, hasKey],
     by
      intro p hp nm hnm
      simp only [List.mem_singleton] at hp
      subst hp
      simp [refNames] at hnm⟩

/-- Claim C3 (amended): a wire schema presenting two or more
form-determining keyword groups is never accepted; the spec's example
`{"type": "boolean", "enum": ["A"]}` is in particular rejected with the
invalid-form error.  The error for a multi-group schema is however not
always `InvalidForm` (see the counterexample). -/
theorem c3_keyword_groups :
    (∀ (w : Serde) (s : Schema), 2 ≤ groupCount w → Schema.from_serde w ≠ .ok s) ∧
    Schema.from_serde wTypeEnum = .error .InvalidForm := by
  constructor
  · intro w s hg hok
    have haux := (from_serde_ok_inv hok).1
    have hle := from_serde_aux_ok_groupCount haux
    omega
  · simp [Schema.from_serde, from_serde_aux, convDefs, convEntries, convOptional,
      convMapping, stepType, stepEnum, enumDedup, refStep, stepElements, stepProps,
      stepValues, stepDisc, parseType, Form.isEmptyF, hasKey, Schema.check_refs,
      check_refs_list, Schema.form, Schema.defs, wTypeEnum]

/-- Witness for C3 at the spec's own two-group example. -/
theorem c3_keyword_groups_witness :
    Schema.from_serde wTypeEnum ≠ .ok (Schema.mk none Form.Empty []) :=
  c3_keyword_groups.1 wTypeEnum (Schema.mk none Form.Empty [])
    (by decide)

/-- Counterexample to C3 as stated: `wC3amb` presents two keyword groups
(`properties`/`optionalProperties` and `values`), yet the returned error
is `AmbiguousProperty "a"`, not `InvalidForm` — the required/optional
name clash is detected before the second group is reached. -/
theorem c3_counterexample :
    2 ≤ groupCount wC3amb ∧
    Schema.from_serde wC3amb = .error (.AmbiguousProperty "a") := by
  constructor
  · decide
  · simp [Schema.from_serde, from_serde_aux, convDefs, convEntries, convOptional,
      convMapping, stepType, stepEnum, enumDedup, refStep, stepElements, stepProps,
      stepValues, stepDisc, parseType, Form.isEmptyF, hasKey, Schema.check_refs,
      check_refs_list, Schema.form, Schema.defs, wC3amb, boolSerde, wEmpty]

/-- Claim C4: on a `Properties`-form schema, `into_serde` emits the wire
`properties` field exactly when `has_required` is true or the required
map is non-empty, and the wire `optionalProperties` field exactly when
`has_required` is false or the optional map is non-empty; consequently
the present-but-empty and absent maps round-trip differently. -/
theorem c4_props_emission :
    (∀ (dd : Option (List (String × Schema))) (req opt : List (String × Schema))
        (aa hr : Bool) (ex : List (String × Value)),
      (Schema.into_serde (.mk dd (.Properties req opt aa hr) ex)).props =
        (if hr || !req.isEmpty then some (into_serde_entries req) else none) ∧
      (Schema.into_serde (.mk dd (.Properties req opt aa hr) ex)).opt_props =
        (if !hr || !opt.isEmpty then some (into_serde_entries opt) else none)) ∧
    Schema.from_serde wPropsEmpty = .ok sPropsEmpty ∧
    (Schema.into_serde sPropsEmpty).props = some [] ∧
    (Schema.into_serde sPropsEmpty).opt_props = none ∧
    Schema.from_serde wOptEmpty = .ok sOptEmpty ∧
    (Schema.into_serde sOptEmpty).props = none ∧
    (Schema.into_serde sOptEmpty).opt_props = some [] := by
  refine ⟨fun dd req opt aa hr ex => ?_, ?_, ?_, ?_, ?_, ?_, ?_⟩
  · rw [Schema.into_serde.eq_def]
    constructor <;> cases dd <;> simp [Serde.props, Serde.opt_props]
  all_goals
    simp [Schema.from_serde, from_serde_aux, convDefs, convEntries, convOptional,
      convMapping, stepType, stepEnum, enumDedup, refStep, stepElements, stepProps,
      stepValues, stepDisc, parseType, Form.isEmptyF, hasKey, Schema.check_refs,
      check_refs_list, Schema.form, Schema.defs, Schema.into_serde,
      into_serde_entries, Serde.props, Serde.opt_props, wPropsEmpty, sPropsEmpty,
      wOptEmpty, sOptEmpty]

/-- Claim C5: a successfully converted wire schema whose `discriminator`
keyword carries tag `tag` and mapping `mapping` has a `Discriminator`
form whose branches all converted to `Properties`-form schemas that do
not declare the tag; a mapping with an otherwise-convertible
non-`Properties` branch is rejected with `InvalidForm`, and one whose
branches are all `Properties` but where some branch declares the tag is
rejected with `AmbiguousProperty tag`. -/
theorem c5_discriminator (tag : String) (mapping : List (String × Serde)) :
    (∀ (w : Serde) (r : Bool) (s : Schema), w.disc = some (tag, mapping) →
      from_serde_aux w r = .ok s →
      ∃ out, s.form = .Discriminator tag out ∧
        List.Forall₂ (fun p q => p.1 = q.1 ∧ from_serde_aux p.2 false = .ok q.2 ∧
          ∃ ro oo aa hr, q.2.form = .Properties ro oo aa hr ∧
            hasKey ro tag = false ∧ hasKey oo tag = false) mapping out) ∧
    ((∀ p ∈ mapping, ∃ t, from_serde_aux p.2 false = .ok t) →
     (∀ p ∈ mapping, ∀ t, from_serde_aux p.2 false = .ok t →
        ∀ ro oo aa hr, t.form = .Properties ro oo aa hr →
          hasKey ro tag = false ∧ hasKey oo tag = false) →
     (∃ p ∈ mapping, ∀ t, from_serde_aux p.2 false = .ok t →
        ∀ ro oo aa hr, t.form ≠ .Properties ro oo aa hr) →
     convMapping tag mapping = .error .InvalidForm) ∧
    ((∀ p ∈ mapping, ∃ t, from_serde_aux p.2 false = .ok t ∧
        ∃ ro oo aa hr, t.form = .Properties ro oo aa hr) →
     (∃ p ∈ mapping, ∀ t, from_serde_aux p.2 false = .ok t →
        ∀ ro oo aa hr, t.form = .Properties ro oo aa hr →
          (hasKey ro tag || hasKey oo tag) = true) →
     convMapping tag mapping = .error (.AmbiguousProperty tag)) := by
  refine ⟨?_, convMapping_err_nonprops, convMapping_err_tag⟩
  intro w r s hdisc hok
  obtain ⟨defs, addl, rxf, typ, enm, elems, props, optProps, vals, disc, extra⟩ := w
  simp only [Serde.disc] at hdisc
  subst hdisc
  obtain ⟨defsOut, f2, f3, f4, f5, f6, f7, h0, hc2, hc3, hc4, hc5, hc6, hc7, hs⟩ :=
    from_serde_aux_ok_chain hok
  obtain ⟨hf6, m, hm, hf7⟩ := stepDisc_some_ok hc7
  subst hf7
  subst hs
  exact ⟨m, by simp [Schema.form], convMapping_forall₂ hm⟩

/-- Witness for C5: a discriminator mapping with an empty-form branch is
rejected with the invalid-form error. -/
theorem c5_discriminator_witness :
    convMapping "t" dmapEmptyBranch = .error .InvalidForm :=
  (c5_discriminator "t" dmapEmptyBranch).2.1
    (by
      intro p hp
      simp only [dmapEmptyBranch, List.mem_singleton] at hp
      subst hp
      exact ⟨.mk none .Empty [], by
        simp [from_serde_aux, convDefs, stepType, stepEnum, refStep, stepElements,
          stepProps, stepValues, stepDisc, Form.isEmptyF, wEmpty]⟩)
    (by
      intro p hp t ht ro oo aa hr hform
      simp only [dmapEmptyBranch, List.mem_singleton] at hp
      subst hp
      simp only [from_serde_aux, convDefs, stepType, stepEnum, refStep, stepElements,
        stepProps, stepValues, stepDisc, Form.isEmptyF, wEmpty] at ht
      simp [from_serde_aux, convDefs, stepType, stepEnum, refStep, stepElements,
        stepProps, stepValues, stepDisc, Form.isEmptyF, wEmpty] at ht
      subst ht
      simp [Schema.form] at hform)
    ⟨("x", wEmpty), by simp [dmapEmptyBranch], by
      intro t ht ro oo aa hr
      simp [from_serde_aux, convDefs, stepType, stepEnum, refStep, stepElements,
        stepProps, stepValues, stepDisc, Form.isEmptyF, wEmpty] at ht
      subst ht
      simp [Schema.form]⟩

/-- Claim C6: a schema accepted by `from_serde` never has a property
name in both its wire `properties` and `optionalProperties` maps; the
disjoint example `w6a` is accepted while the overlapping `w6b` is
rejected with `AmbiguousProperty "a"`. -/
theorem c6_property_overlap :
    (∀ (w : Serde) (s : Schema) (l1 l2 : List (String × Serde)),
      Schema.from_serde w = .ok s → w.props = some l1 → w.opt_props = some l2 →
      ∀ nm, hasKey l1 nm = true → hasKey l2 nm = false) ∧
    Schema.from_serde w6a = .ok s6a ∧
    Schema.from_serde w6b = .error (.AmbiguousProperty "a") := by
  refine ⟨?_, ?_, ?_⟩
  · intro w s l1 l2 h h1 h2 nm hk1
    obtain ⟨defs, addl, rxf, typ, enm, elems, props, optProps, vals, disc, extra⟩ := w
    simp only [Serde.props] at h1
    simp only [Serde.opt_props] at h2
    subst h1
    subst h2
    have haux := (from_serde_ok_inv h).1
    obtain ⟨defsOut, f2, f3, f4, f5, f6, f7, h0, hc2, hc3, hc4, hc5, hc6, hc7, hs⟩ :=
      from_serde_aux_ok_chain haux
    have hg : ((some l1).isSome || (some l2).isSome) = true := by simp
    obtain ⟨hfe, req, opt, hreq, hopt, hf5⟩ := stepProps_group_ok hg hc5
    have hreq2 : convEntries l1 = .ok req := hreq
    have hopt2 : convOptional l2 req = .ok opt := hopt
    have hkeys := forall₂_keys_eq (fun p q hpq => hpq.1) (convEntries_forall₂ hreq2)
    have hdisj := (convOptional_forall₂ hopt2).2
    cases hk2 : hasKey l2 nm with
    | false => rfl
    | true =>
      obtain ⟨p, hp, hpnm⟩ := hasKey_iff_exists.mp hk2
      have hr := hdisj p hp
      rw [hpnm, hkeys nm, hk1] at hr
      cases hr
  · simp [Schema.from_serde, from_serde_aux, convDefs, convEntries, convOptional,
      convMapping, stepType, stepEnum, enumDedup, refStep, stepElements, stepProps,
      stepValues, stepDisc, parseType, Form.isEmptyF, hasKey, Schema.check_refs,
      check_refs_list, Schema.form, Schema.defs, w6a, s6a, boolSerde, boolSchema]
  · simp [Schema.from_serde, from_serde_aux, convDefs, convEntries, convOptional,
      convMapping, stepType, stepEnum, enumDedup, refStep, stepElements, stepProps,
      stepValues, stepDisc, parseType, Form.isEmptyF, hasKey, Schema.check_refs,
      check_refs_list, Schema.form, Schema.defs, w6b, boolSerde]

/-- Witness for C6 at the accepted example `w6a`. -/
theorem c6_property_overlap_witness :
    hasKey [("b", boolSerde)] "a" = false :=
  c6_property_overlap.1 w6a s6a [("a", boolSerde)] [("b", boolSerde)]
    (by simp [Schema.from_serde, from_serde_aux, convDefs, convEntries, convOptional,
      convMapping, stepType, stepEnum, enumDedup, refStep, stepElements, stepProps,
      stepValues, stepDisc, parseType, Form.isEmptyF, hasKey, Schema.check_refs,
      check_refs_list, Schema.form, Schema.defs, w6a, s6a, boolSerde, boolSchema])
    rfl rfl "a" (by simp [hasKey])

/-- Claim C7: when the wire `enum` keyword carries the list `l`, any
successful conversion yields exactly the form `Enum l` with `l`
non-empty and duplicate-free; and the enum block itself answers an empty
or duplicated list with the invalid-form error. -/
theorem c7_enum (w : Serde) (l : List String) (henm : w.enm = some l) :
    (∀ (r : Bool) (s : Schema), from_serde_aux w r = .ok s →
      s.form = .Enum l ∧ l ≠ [] ∧ l.Nodup) ∧
    ((l = [] ∨ ¬ l.Nodup) → stepEnum (some l) .Empty = .error .InvalidForm) := by
  constructor
  · intro r s hok
    obtain ⟨defs, addl, rxf, typ, enm, elems, props, optProps, vals, disc, extra⟩ := w
    simp only [Serde.enm] at henm
    subst henm
    obtain ⟨defsOut, f2, f3, f4, f5, f6, f7, h0, hc2, hc3, hc4, hc5, hc6, hc7, hs⟩ :=
      from_serde_aux_ok_chain hok
    obtain ⟨hf2, hne, hnd, hf3⟩ := stepEnum_some_ok hc3
    subst hf3
    have hf4 := stepElements_ok_stay (by simp [Form.isEmptyF]) hc4
    subst hf4
    have hf5 := stepProps_ok_stay (by simp [Form.isEmptyF]) hc5
    subst hf5
    have hf6 := stepValues_ok_stay (by simp [Form.isEmptyF]) hc6
    subst hf6
    have hf7 := stepDisc_ok_stay (by simp [Form.isEmptyF]) hc7
    subst hf7
    subst hs
    exact ⟨by simp [Schema.form], hne, hnd⟩
  · intro hcase
    rcases hcase with rfl | hnd
    · simp [stepEnum, Form.isEmptyF, enumDedup]
    · simp only [stepEnum, Form.isEmptyF, if_true]
      rw [enumDedup_nil_eq, if_neg hnd]
      simp

/-- Witness for C7: the duplicated enum `["A", "A"]` is answered with
the invalid-form error. -/
theorem c7_enum_witness :
    stepEnum (some ["A", "A"]) Form.Empty = .error .InvalidForm :=
  (c7_enum wEnumDup ["A", "A"] rfl).2 (.inr (by simp))

/-- Claim C8 (amended): a non-root wire schema carrying a definitions
table is rejected, and the error returned for it is the ordinary
`InvalidForm` construction error — the error type has no separate
definitions-on-non-root kind. -/
theorem c8_nested_definitions (w : Serde) (h : w.defs.isSome = true) :
    from_serde_aux w false = .error .InvalidForm := by
  obtain ⟨defs, addl, rxf, typ, enm, elems, props, optProps, vals, disc, extra⟩ := w
  simp only [Serde.defs] at h
  obtain ⟨l, hl⟩ := Option.isSome_iff_exists.mp h
  subst hl
  simp [from_serde_aux, convDefs]

/-- Witness for C8 at the wire value `{"definitions": {}}` in non-root
position. -/
theorem c8_nested_definitions_witness :
    from_serde_aux wNestedDefs false = .error .InvalidForm :=
  c8_nested_definitions wNestedDefs rfl

/-- Counterexample to C8 as stated: the full pipeline rejects
`{"elements": {"definitions": {}}}` with plain `InvalidForm`, the same
kind raised for two keyword groups — there is no distinct
definitions-on-non-root error kind for callers to branch on. -/
theorem c8_counterexample :
    Schema.from_serde wElemNested = .error .InvalidForm := by
  simp [Schema.from_serde, from_serde_aux, convDefs, convEntries, convOptional,
    convMapping, stepType, stepEnum, enumDedup, refStep, stepElements, stepProps,
    stepValues, stepDisc, parseType, Form.isEmptyF, hasKey, Schema.check_refs,
    check_refs_list, Schema.form, Schema.defs, wElemNested, wNestedDefs]

/-- Claim C9: the validator is a total function, and on the cyclic
schema `{"definitions": {"a": {"elements": {"ref": "a"}}}, "ref": "a"}`
— accepted by `from_serde` — validating a depth-`d` nested array
terminates for every configured `max_depth`: it succeeds when the `d+1`
needed ref expansions stay within `max_depth` and aborts with the
engine-level `MaxDepthExceeded` error otherwise. -/
theorem c9_max_depth_termination :
    Schema.from_serde wCyclic = .ok cyclicRoot ∧
    ∀ (d m k : Nat),
      validateRoot ⟨m, k⟩ cyclicRoot (nestArr d) =
        if d + 1 ≤ m then
          .ok [⟨List.replicate d (.idx 0), List.replicate (d + 1) (.str "elements")⟩]
        else .error .MaxDepthExceeded := by
  constructor
  · simp [Schema.from_serde, from_serde_aux, convDefs, convEntries, convOptional,
      convMapping, stepType, stepEnum, enumDedup, refStep, stepElements, stepProps,
      stepValues, stepDisc, parseType, Form.isEmptyF, hasKey, Schema.check_refs,
      check_refs_list, Schema.form, Schema.defs, wCyclic, cyclicRoot, cyclicDefs,
      elemsRefA, refASchema]
  · intro d m k
    have hv := validate_refA d m 0 [] [] none (some cyclicDefs) []
    simpa [validateRoot, cyclicRoot, Schema.defs, Option.getD] using hv

/-- Claim C10: every schema `from_serde` returns is a root schema —
`is_root` holds and `definitions` is present (empty exactly when the
wire value omitted `definitions`) — and every schema nested inside its
form or stored in its definitions table, recursively, carries no
definitions table of its own. -/
theorem c10_root_invariant (w : Serde) (s : Schema)
    (h : Schema.from_serde w = .ok s) :
    s.is_root = true ∧
    ∃ ds, s.definitions = some ds ∧ (w.defs = none → ds = []) ∧
      formNonRoot s.form = true ∧ nonRootList ds = true := by
  have haux := (from_serde_ok_inv h).1
  obtain ⟨ds, hds, hform, hlist, hnone⟩ := root_inv w s haux
  refine ⟨by simp [Schema.is_root, hds], ds, ?_, hnone, hform, hlist⟩
  simp [Schema.definitions, Schema.is_root, hds]

/-- Witness for C10 at `w2ref`. -/
theorem c10_root_invariant_witness :
    s2ref.is_root = true ∧
    ∃ ds, s2ref.definitions = some ds ∧ (w2ref.defs = none → ds = []) ∧
      formNonRoot s2ref.form = true ∧ nonRootList ds = true :=
  c10_root_invariant w2ref s2ref
    (by simp [Schema.from_serde, from_serde_aux, convDefs, convEntries, convOptional,
      convMapping, stepType, stepEnum, enumDedup, refStep, stepElements, stepProps,
      stepValues, stepDisc, parseType, Form.isEmptyF, hasKey, Schema.check_refs,
      check_refs_list, Schema.form, Schema.defs, w2ref, wEmpty, s2ref])

end Jddf
